import Mathlib

/-!
Verification of the gotiny structural binary serializer against its
natural-language specification.

The development shallowly embeds the Go sources: machine integers are
modelled as `Nat` with explicit `% 2^w` wherever the Go code can wrap,
byte buffers are `List Nat` (each entry a byte value), strings and type
names are byte lists, and the mutable `Decoder`/`Encoder` session objects
become explicit state records threaded through the operations.
Definitions are translated from the repository sources; the encoder
primitive file is absent from the sources, so the encode-side primitives
are modelled from the specification and marked as such in their
doc comments.
-/

namespace Gotiny

/-- Decoder session state, from decoder.go: a byte buffer, the index of
the next byte to be consumed, and the boolean bit cursor (current control
byte value `boolPos` and next bit mask `boolBit`). -/
structure Decoder where
  buf : List Nat
  index : Nat
  boolPos : Nat
  boolBit : Nat
  deriving Repr, DecidableEq

/-- Reading `d.buf[i]`; Go's buffer is `[]byte`, so entries are bytes. -/
def byteAt (d : Decoder) (i : Nat) : Nat := d.buf.getD i 0

/-- Wrapping 64-bit addition. -/
def u64add (a b : Nat) : Nat := (a + b) % 2 ^ 64

/-- Wrapping 64-bit left shift. -/
def u64shl (a k : Nat) : Nat := (a <<< k) % 2 ^ 64

/-- Wrapping 64-bit subtraction (b is assumed reduced, as all uses are
constants below 2^64). -/
def u64sub (a b : Nat) : Nat := (a + (2 ^ 64 - b)) % 2 ^ 64

/-- Wrapping 32-bit addition. -/
def u32add (a b : Nat) : Nat := (a + b) % 2 ^ 32

/-- Wrapping 32-bit left shift. -/
def u32shl (a k : Nat) : Nat := (a <<< k) % 2 ^ 32

/-- Wrapping 32-bit subtraction. -/
def u32sub (a b : Nat) : Nat := (a + (2 ^ 32 - b)) % 2 ^ 32

/-- Wrapping 16-bit addition. -/
def u16add (a b : Nat) : Nat := (a + b) % 2 ^ 16

/-- Wrapping 16-bit left shift. -/
def u16shl (a k : Nat) : Nat := (a <<< k) % 2 ^ 16

/-- Wrapping 16-bit subtraction. -/
def u16sub (a b : Nat) : Nat := (a + (2 ^ 16 - b)) % 2 ^ 16

/-- Decoder.decUint64 from the sources: base-128 variable-length decode
of a uint64, reading between 1 and 9 bytes; each continuation byte has
its high bit set, and the 9th byte (if reached) contributes its full
8 bits shifted by 56. All arithmetic is wrapping uint64 arithmetic. -/
def Decoder.decUint64 (d : Decoder) : Nat × Decoder :=
  let i := d.index
  let x0 := byteAt d i
  if x0 < 0x80 then (x0, { d with index := i + 1 }) else
  let x1 := byteAt d (i + 1)
  let a1 := u64add x0 (u64shl x1 7)
  if x1 < 0x80 then (u64sub a1 (2 ^ 7), { d with index := i + 2 }) else
  let x2 := byteAt d (i + 2)
  let a2 := u64add a1 (u64shl x2 14)
  if x2 < 0x80 then (u64sub a2 (2 ^ 7 + 2 ^ 14), { d with index := i + 3 }) else
  let x3 := byteAt d (i + 3)
  let a3 := u64add a2 (u64shl x3 21)
  if x3 < 0x80 then (u64sub a3 (2 ^ 7 + 2 ^ 14 + 2 ^ 21), { d with index := i + 4 }) else
  let x4 := byteAt d (i + 4)
  let a4 := u64add a3 (u64shl x4 28)
  if x4 < 0x80 then (u64sub a4 (2 ^ 7 + 2 ^ 14 + 2 ^ 21 + 2 ^ 28), { d with index := i + 5 }) else
  let x5 := byteAt d (i + 5)
  let a5 := u64add a4 (u64shl x5 35)
  if x5 < 0x80 then
    (u64sub a5 (2 ^ 7 + 2 ^ 14 + 2 ^ 21 + 2 ^ 28 + 2 ^ 35), { d with index := i + 6 }) else
  let x6 := byteAt d (i + 6)
  let a6 := u64add a5 (u64shl x6 42)
  if x6 < 0x80 then
    (u64sub a6 (2 ^ 7 + 2 ^ 14 + 2 ^ 21 + 2 ^ 28 + 2 ^ 35 + 2 ^ 42), { d with index := i + 7 }) else
  let x7 := byteAt d (i + 7)
  let a7 := u64add a6 (u64shl x7 49)
  if x7 < 0x80 then
    (u64sub a7 (2 ^ 7 + 2 ^ 14 + 2 ^ 21 + 2 ^ 28 + 2 ^ 35 + 2 ^ 42 + 2 ^ 49),
     { d with index := i + 8 }) else
  let x8 := byteAt d (i + 8)
  (u64sub (u64add a7 (u64shl x8 56))
     (2 ^ 7 + 2 ^ 14 + 2 ^ 21 + 2 ^ 28 + 2 ^ 35 + 2 ^ 42 + 2 ^ 49 + 2 ^ 56),
   { d with index := i + 9 })

/-- Decoder.decUint16 from the sources: variable-length decode of a
uint16, reading between 1 and 3 bytes. -/
def Decoder.decUint16 (d : Decoder) : Nat × Decoder :=
  let i := d.index
  let x0 := byteAt d i
  if x0 < 0x80 then (x0, { d with index := i + 1 }) else
  let x1 := byteAt d (i + 1)
  let a1 := u16add x0 (u16shl x1 7)
  if x1 < 0x80 then (u16sub a1 (2 ^ 7), { d with index := i + 2 }) else
  let x2 := byteAt d (i + 2)
  (u16sub (u16add a1 (u16shl x2 14)) (2 ^ 7 + 2 ^ 14), { d with index := i + 3 })

/-- Decoder.decUint32 from the sources: variable-length decode of a
uint32, reading between 1 and 5 bytes; the 5th byte (if reached)
contributes only its low 4 bits after the uint32 wrap. -/
def Decoder.decUint32 (d : Decoder) : Nat × Decoder :=
  let i := d.index
  let x0 := byteAt d i
  if x0 < 0x80 then (x0, { d with index := i + 1 }) else
  let x1 := byteAt d (i + 1)
  let a1 := u32add x0 (u32shl x1 7)
  if x1 < 0x80 then (u32sub a1 (2 ^ 7), { d with index := i + 2 }) else
  let x2 := byteAt d (i + 2)
  let a2 := u32add a1 (u32shl x2 14)
  if x2 < 0x80 then (u32sub a2 (2 ^ 7 + 2 ^ 14), { d with index := i + 3 }) else
  let x3 := byteAt d (i + 3)
  let a3 := u32add a2 (u32shl x3 21)
  if x3 < 0x80 then (u32sub a3 (2 ^ 7 + 2 ^ 14 + 2 ^ 21), { d with index := i + 4 }) else
  let x4 := byteAt d (i + 4)
  (u32sub (u32add a3 (u32shl x4 28)) (2 ^ 7 + 2 ^ 14 + 2 ^ 21 + 2 ^ 28),
   { d with index := i + 5 })

/-- Decoder.decLength from the sources: every length/count prefix is
read through the 32-bit varint decoder, `int(d.decUint32())`. -/
def Decoder.decLength (d : Decoder) : Nat × Decoder := d.decUint32

/-- Decoder.decBool from the sources: booleans are read from a shared
control byte, least-significant bit first; a fresh control byte is
consumed from the buffer when the bit mask has wrapped to zero.
`boolBit <<= 1` is a byte shift, so the mask wraps to 0 after 8 bits. -/
def Decoder.decBool (d : Decoder) : Bool × Decoder :=
  let d1 :=
    if d.boolBit = 0 then
      { d with boolBit := 1, boolPos := byteAt d d.index, index := d.index + 1 }
    else d
  (decide (d1.boolPos &&& d1.boolBit ≠ 0), { d1 with boolBit := (d1.boolBit <<< 1) % 2 ^ 8 })

/-- Decoder.decIsNotNil from the sources. -/
def Decoder.decIsNotNil (d : Decoder) : Bool × Decoder := d.decBool

/-- decString from the sources: a uint32 length prefix followed by that
many raw bytes. -/
def decString (d : Decoder) : List Nat × Decoder :=
  let (l, d1) := d.decUint32
  ((d1.buf.drop d1.index).take l, { d1 with index := d1.index + l })

/-- decBytes from the sources: a presence boolean; if present, a uint32
length prefix and that many raw bytes (aliasing the input buffer); if
absent and the destination was non-nil, the destination is set to nil. -/
def decBytes (d : Decoder) (old : Option (List Nat)) : Option (List Nat) × Decoder :=
  let (notNil, d1) := d.decIsNotNil
  if notNil then
    let (l, d2) := d1.decUint32
    (some ((d2.buf.drop d2.index).take l), { d2 with index := d2.index + l })
  else if old ≠ none then (none, d1) else (old, d1)

/-- Decoder.reset from decoder.go: every top-level decode call ends by
returning the consumed byte count and zeroing the read cursor and the
boolean bit cursor, so boolean groups never leak across calls. -/
def Decoder.reset (d : Decoder) : Nat × Decoder :=
  (d.index, { d with index := 0, boolPos := 0, boolBit := 0 })

/-- Modelled from the spec: the encoder primitive file is not among the
sources, so the unsigned variable-length writer is modelled from the
specification's wire rules: base-128 groups in little-endian group
order, each byte's high bit marking that more groups follow, with a
width-bounded group count whose final group is written uncompressed.
`encGroups f v` writes up to `f` continuation groups followed by one
final raw group. -/
def encGroups : Nat → Nat → List Nat
  | 0, v => [v]
  | f + 1, v => if v < 0x80 then [v] else (v % 0x80 + 0x80) :: encGroups f (v / 0x80)

/-- Modelled from the spec: 16-bit unsigned varint encoding (two 7-bit
groups, then a final raw group). -/
def encUint16 (v : Nat) : List Nat := encGroups 2 v

/-- Modelled from the spec: 32-bit unsigned varint encoding (four 7-bit
groups, then a final raw group). -/
def encUint32 (v : Nat) : List Nat := encGroups 4 v

/-- Modelled from the spec: 64-bit unsigned varint encoding (eight 7-bit
groups, then a final raw group holding the top 8 bits uncompressed). -/
def encUint64 (v : Nat) : List Nat := encGroups 8 v

/-! Helper lemmas about the varint writer and readers. -/

theorem encGroups_stop (f v : Nat) (h : v < 0x80) : encGroups f v = [v] := by
  cases f <;> simp [encGroups, h]

theorem encGroups_step (f v : Nat) (h : 0x80 ≤ v) :
    encGroups (f + 1) v = (v % 0x80 + 0x80) :: encGroups f (v / 0x80) := by
  simp only [encGroups, if_neg (by omega : ¬ v < 0x80)]

theorem encGroups_length_le (f v : Nat) : (encGroups f v).length ≤ f + 1 := by
  induction f generalizing v with
  | zero => simp [encGroups]
  | succ f ih =>
    unfold encGroups
    split
    · simp
    · simpa using ih (v / 0x80)

theorem encGroups_length_eq (f v : Nat) (h : 2 ^ (7 * f) ≤ v) :
    (encGroups f v).length = f + 1 := by
  induction f generalizing v with
  | zero => simp [encGroups]
  | succ f ih =>
    rw [encGroups_step _ _ (le_trans (by norm_num) (le_trans
          (Nat.pow_le_pow_right (by norm_num) (by omega : 7 ≤ 7 * (f + 1))) h))]
    simp only [List.length_cons]
    rw [ih (v / 0x80) ?_]
    have hp : 2 ^ (7 * (f + 1)) = 2 ^ (7 * f) * 2 ^ 7 := by
      rw [← pow_add]; ring_nf
    rw [hp] at h
    omega

theorem decUint16_consumes_le (d : Decoder) : (d.decUint16).2.index ≤ d.index + 3 := by
  unfold Decoder.decUint16
  dsimp only
  split_ifs <;> simp

theorem decUint32_consumes_le (d : Decoder) : (d.decUint32).2.index ≤ d.index + 5 := by
  unfold Decoder.decUint32
  dsimp only
  split_ifs <;> simp

theorem decUint64_consumes_le (d : Decoder) : (d.decUint64).2.index ≤ d.index + 9 := by
  unfold Decoder.decUint64
  dsimp only
  split_ifs <;> simp

theorem decUint32_fst_lt (d : Decoder) : (d.decUint32).1 < 2 ^ 32 := by
  unfold Decoder.decUint32
  dsimp only
  split_ifs <;> simp [u32sub, u32add, u32shl] <;> omega

/-- Decoding inverts the (spec-modelled) 64-bit varint writer on every
64-bit value, consuming exactly the encoded bytes. -/
theorem decUint64_encUint64 (v : Nat) (hv : v < 2 ^ 64) :
    Decoder.decUint64 ⟨encUint64 v, 0, 0, 0⟩ =
      (v, ⟨encUint64 v, (encUint64 v).length, 0, 0⟩) := by
  rcases Nat.lt_or_ge v (2 ^ 7) with h1 | h1
  · rw [encUint64, encGroups_stop _ _ (by omega)]
    unfold Decoder.decUint64
    dsimp only [byteAt, List.getD_cons_zero, List.getD_cons_succ]
    rw [if_pos (by omega)]
    simp
  rcases Nat.lt_or_ge v (2 ^ 14) with h2 | h2
  · rw [encUint64, encGroups_step _ _ (by omega), encGroups_stop _ _ (by omega)]
    unfold Decoder.decUint64
    dsimp only [byteAt, List.getD_cons_zero, List.getD_cons_succ]
    rw [if_neg (by intro hcon; omega), if_pos (by omega)]
    simp only [u64add, u64shl, u64sub, Nat.shiftLeft_eq, Prod.mk.injEq]
    exact ⟨by omega, by simp⟩
  rcases Nat.lt_or_ge v (2 ^ 21) with h3 | h3
  · rw [encUint64, encGroups_step _ _ (by omega), encGroups_step _ _ (by omega),
        encGroups_stop _ _ (by omega)]
    unfold Decoder.decUint64
    dsimp only [byteAt, List.getD_cons_zero, List.getD_cons_succ]
    rw [if_neg (by intro hcon; omega), if_neg (by intro hcon; omega), if_pos (by omega)]
    simp only [u64add, u64shl, u64sub, Nat.shiftLeft_eq, Prod.mk.injEq]
    exact ⟨by omega, by simp⟩
  rcases Nat.lt_or_ge v (2 ^ 28) with h4 | h4
  · rw [encUint64, encGroups_step _ _ (by omega), encGroups_step _ _ (by omega),
        encGroups_step _ _ (by omega), encGroups_stop _ _ (by omega)]
    unfold Decoder.decUint64
    dsimp only [byteAt, List.getD_cons_zero, List.getD_cons_succ]
    rw [if_neg (by intro hcon; omega), if_neg (by intro hcon; omega), if_neg (by intro hcon; omega), if_pos (by omega)]
    simp only [u64add, u64shl, u64sub, Nat.shiftLeft_eq, Prod.mk.injEq]
    exact ⟨by omega, by simp⟩
  rcases Nat.lt_or_ge v (2 ^ 35) with h5 | h5
  · rw [encUint64, encGroups_step _ _ (by omega), encGroups_step _ _ (by omega),
        encGroups_step _ _ (by omega), encGroups_step _ _ (by omega),
        encGroups_stop _ _ (by omega)]
    unfold Decoder.decUint64
    dsimp only [byteAt, List.getD_cons_zero, List.getD_cons_succ]
    rw [if_neg (by intro hcon; omega), if_neg (by intro hcon; omega), if_neg (by intro hcon; omega), if_neg (by intro hcon; omega),
        if_pos (by omega)]
    simp only [u64add, u64shl, u64sub, Nat.shiftLeft_eq, Prod.mk.injEq]
    exact ⟨by omega, by simp⟩
  rcases Nat.lt_or_ge v (2 ^ 42) with h6 | h6
  · rw [encUint64, encGroups_step _ _ (by omega), encGroups_step _ _ (by omega),
        encGroups_step _ _ (by omega), encGroups_step _ _ (by omega),
        encGroups_step _ _ (by omega), encGroups_stop _ _ (by omega)]
    unfold Decoder.decUint64
    dsimp only [byteAt, List.getD_cons_zero, List.getD_cons_succ]
    rw [if_neg (by intro hcon; omega), if_neg (by intro hcon; omega), if_neg (by intro hcon; omega), if_neg (by intro hcon; omega),
        if_neg (by intro hcon; omega), if_pos (by omega)]
    simp only [u64add, u64shl, u64sub, Nat.shiftLeft_eq, Prod.mk.injEq]
    exact ⟨by omega, by simp⟩
  rcases Nat.lt_or_ge v (2 ^ 49) with h7 | h7
  · rw [encUint64, encGroups_step _ _ (by omega), encGroups_step _ _ (by omega),
        encGroups_step _ _ (by omega), encGroups_step _ _ (by omega),
        encGroups_step _ _ (by omega), encGroups_step _ _ (by omega),
        encGroups_stop _ _ (by omega)]
    unfold Decoder.decUint64
    dsimp only [byteAt, List.getD_cons_zero, List.getD_cons_succ]
    rw [if_neg (by intro hcon; omega), if_neg (by intro hcon; omega), if_neg (by intro hcon; omega), if_neg (by intro hcon; omega),
        if_neg (by intro hcon; omega), if_neg (by intro hcon; omega), if_pos (by omega)]
    simp only [u64add, u64shl, u64sub, Nat.shiftLeft_eq, Prod.mk.injEq]
    exact ⟨by omega, by simp⟩
  rcases Nat.lt_or_ge v (2 ^ 56) with h8 | h8
  · rw [encUint64, encGroups_step _ _ (by omega), encGroups_step _ _ (by omega),
        encGroups_step _ _ (by omega), encGroups_step _ _ (by omega),
        encGroups_step _ _ (by omega), encGroups_step _ _ (by omega),
        encGroups_step _ _ (by omega), encGroups_stop _ _ (by omega)]
    unfold Decoder.decUint64
    dsimp only [byteAt, List.getD_cons_zero, List.getD_cons_succ]
    rw [if_neg (by intro hcon; omega), if_neg (by intro hcon; omega), if_neg (by intro hcon; omega), if_neg (by intro hcon; omega),
        if_neg (by intro hcon; omega), if_neg (by intro hcon; omega), if_neg (by intro hcon; omega), if_pos (by omega)]
    simp only [u64add, u64shl, u64sub, Nat.shiftLeft_eq, Prod.mk.injEq]
    exact ⟨by omega, by simp⟩
  · rw [encUint64, encGroups_step _ _ (by omega), encGroups_step _ _ (by omega),
        encGroups_step _ _ (by omega), encGroups_step _ _ (by omega),
        encGroups_step _ _ (by omega), encGroups_step _ _ (by omega),
        encGroups_step _ _ (by omega), encGroups_step _ _ (by omega)]
    show Decoder.decUint64 ⟨_ :: _ :: _ :: _ :: _ :: _ :: _ :: _ :: encGroups 0 _, 0, 0, 0⟩ = _
    unfold encGroups Decoder.decUint64
    dsimp only [byteAt, List.getD_cons_zero, List.getD_cons_succ]
    rw [if_neg (by intro hcon; omega), if_neg (by intro hcon; omega), if_neg (by intro hcon; omega), if_neg (by intro hcon; omega),
        if_neg (by intro hcon; omega), if_neg (by intro hcon; omega), if_neg (by intro hcon; omega), if_neg (by intro hcon; omega)]
    simp only [u64add, u64shl, u64sub, Nat.shiftLeft_eq, Prod.mk.injEq]
    exact ⟨by omega, by simp⟩

/-- C1 counterexample: the claim bounds the 16-bit varint at 2 byte
groups and says the 16-bit decoder never consumes more than 2 bytes, but
decUint16 consumes 3 bytes on the encoding of 65535 (a 16-bit value
needs two 7-bit groups plus a third group for its top 2 bits). -/
theorem c1_sixteen_bit_takes_three_groups :
    Decoder.decUint16 ⟨[255, 255, 3], 0, 0, 0⟩ = (65535, ⟨[255, 255, 3], 3, 0, 0⟩) ∧
    encUint16 65535 = [255, 255, 3] ∧ ¬ (3 ≤ 2) := by
  refine ⟨by decide, by decide, by omega⟩

/-- C1 (amended: the 16-bit maximum is 3 groups, not 2): varint
representations are width-bounded — at most 3 bytes for 16-bit, 5 for
32-bit, 9 for 64-bit values; 127 encodes to 1 byte, 128 to 2 bytes, and
every 64-bit value at least 2^56 takes the full 9 bytes; the decoders
never consume more than 3, 5 and 9 bytes respectively; decoding inverts
encoding for every 64-bit value, consuming exactly the encoded bytes. -/
theorem c1_varint_width_bounds :
    (∀ v, v < 2 ^ 16 → (encUint16 v).length ≤ 3) ∧
    (∀ v, v < 2 ^ 32 → (encUint32 v).length ≤ 5) ∧
    (∀ v, v < 2 ^ 64 → (encUint64 v).length ≤ 9) ∧
    encUint64 127 = [127] ∧
    (encUint64 128).length = 2 ∧
    (∀ v, 2 ^ 56 ≤ v → v < 2 ^ 64 → (encUint64 v).length = 9) ∧
    (∀ d, (Decoder.decUint16 d).2.index ≤ d.index + 3) ∧
    (∀ d, (Decoder.decUint32 d).2.index ≤ d.index + 5) ∧
    (∀ d, (Decoder.decUint64 d).2.index ≤ d.index + 9) ∧
    (∀ v, v < 2 ^ 64 →
      Decoder.decUint64 ⟨encUint64 v, 0, 0, 0⟩ =
        (v, ⟨encUint64 v, (encUint64 v).length, 0, 0⟩)) := by
  refine ⟨fun v _ => encGroups_length_le 2 v, fun v _ => encGroups_length_le 4 v,
    fun v _ => encGroups_length_le 8 v, by decide, by decide,
    fun v h _ => encGroups_length_eq 8 v (by norm_num at h ⊢; omega),
    decUint16_consumes_le, decUint32_consumes_le, decUint64_consumes_le,
    decUint64_encUint64⟩

/-- Witness for c1_varint_width_bounds at concrete inputs. -/
theorem c1_varint_width_bounds_witness :
    (encUint16 1000).length ≤ 3 ∧ (encUint64 (2 ^ 60)).length = 9 ∧
    Decoder.decUint64 ⟨encUint64 300, 0, 0, 0⟩ =
      (300, ⟨encUint64 300, (encUint64 300).length, 0, 0⟩) :=
  ⟨c1_varint_width_bounds.1 1000 (by norm_num),
   c1_varint_width_bounds.2.2.2.2.2.1 (2 ^ 60) (by norm_num) (by norm_num),
   c1_varint_width_bounds.2.2.2.2.2.2.2.2.2 300 (by norm_num)⟩

/-- C10: every length/count prefix on the decode side goes through the
32-bit varint decoder (decLength is definitionally decUint32, and
decString/decBytes read their length with decUint32), so every decoded
length is strictly below 2^32. The slice and map engines read their
counts with decLength (see decSlice below). -/
theorem c10_lengths_below_2_32 :
    (∀ d, Decoder.decLength d = d.decUint32) ∧
    (∀ d, (Decoder.decLength d).1 < 2 ^ 32) ∧
    (∀ d, ((decString d).1).length < 2 ^ 32) ∧
    (∀ d old bs, (decBytes d old).1 = some bs → bs.length < 2 ^ 32) := by
  refine ⟨fun d => rfl, fun d => decUint32_fst_lt d, fun d => ?_, fun d old bs h => ?_⟩
  · show ((((d.decUint32).2.buf.drop (d.decUint32).2.index)).take (d.decUint32).1).length < 2 ^ 32
    calc ((((d.decUint32).2.buf.drop (d.decUint32).2.index)).take (d.decUint32).1).length
        ≤ (d.decUint32).1 := List.length_take_le _ _
      _ < 2 ^ 32 := decUint32_fst_lt d
  · unfold decBytes at h
    dsimp only at h
    split_ifs at h with h1 h2
    · rw [Option.some.injEq] at h
      subst h
      calc (List.take ((Decoder.decIsNotNil d).2.decUint32).1
              (List.drop ((Decoder.decIsNotNil d).2.decUint32).2.index
                ((Decoder.decIsNotNil d).2.decUint32).2.buf)).length
          ≤ ((Decoder.decIsNotNil d).2.decUint32).1 := List.length_take_le _ _
        _ < 2 ^ 32 := decUint32_fst_lt _
    · push_neg at h2
      subst h2
      simp at h

/-- Witness for c10_lengths_below_2_32 at a concrete input. -/
theorem c10_lengths_below_2_32_witness :
    (decBytes ⟨[1, 1, 97], 0, 0, 0⟩ none).1 = some [97] ∧ ([97] : List Nat).length < 2 ^ 32 :=
  ⟨by decide, c10_lengths_below_2_32.2.2.2 ⟨[1, 1, 97], 0, 0, 0⟩ none [97] (by decide)⟩

/-! Zigzag mapping (C2). -/

theorem xor_ones (w n : Nat) (h : n < 2 ^ w) : (2 ^ w - 1) ^^^ n = 2 ^ w - 1 - n := by
  induction w generalizing n with
  | zero =>
    have : n = 0 := by omega
    subst this
    simp
  | succ w ih =>
    have hpow : (2 : Nat) ^ (w + 1) = 2 * 2 ^ w := by ring
    have hone : (1 : Nat) ≤ 2 ^ w := Nat.one_le_two_pow
    have ha : (2 ^ (w + 1) - 1) % 2 = 1 := by omega
    have hd : ((2 ^ (w + 1) - 1) ^^^ n) / 2 = (2 ^ w - 1) ^^^ (n / 2) := by
      rw [Nat.xor_div_two]
      congr 1
      omega
    have hm : ((2 ^ (w + 1) - 1) ^^^ n) % 2 = 1 - n % 2 := by
      rcases Nat.mod_two_eq_zero_or_one n with h2 | h2
      · have := (Nat.xor_mod_two_eq_one (a := 2 ^ (w + 1) - 1) (b := n)).mpr
          (by rw [ha, h2]; simp)
        omega
      · have : ¬ ((2 ^ (w + 1) - 1) ^^^ n) % 2 = 1 := by
          rw [Nat.xor_mod_two_eq_one, ha, h2]
          simp
        omega
    have hrec := ih (n / 2) (by omega)
    have hsplit := Nat.div_add_mod ((2 ^ (w + 1) - 1) ^^^ n) 2
    omega

/-- toUIntW w v is the w-bit two's-complement bit pattern of v. -/
def toUIntW (w : Nat) (v : Int) : Nat := (v % ((2 : Int) ^ w)).toNat

/-- ofUIntW w u reinterprets the w-bit pattern u as a signed value. -/
def ofUIntW (w : Nat) (u : Nat) : Int :=
  if u < 2 ^ (w - 1) then (u : Int) else (u : Int) - (2 : Int) ^ w

/-- Generic zigzag encoder pattern shared by the three widths. -/
def zzEnc (w : Nat) (v : Int) : Nat :=
  ((2 * toUIntW w v) % 2 ^ w) ^^^ toUIntW w (Int.fdiv v ((2 : Int) ^ (w - 1)))

/-- Generic zigzag decoder pattern shared by the three widths. -/
def zzDec (w : Nat) (u : Nat) : Int :=
  ofUIntW w (((2 ^ w - (u &&& 1)) % 2 ^ w) ^^^
    (toUIntW w (Int.fdiv (ofUIntW w u) 2) &&& (2 ^ (w - 1) - 1)))

theorem zz_enc_eq (w : Nat) (hw : 1 ≤ w) (v : Int)
    (hlo : -((2 : Int) ^ (w - 1)) ≤ v) (hhi : v < (2 : Int) ^ (w - 1)) :
    zzEnc w v = if 0 ≤ v then (2 * v).toNat else (-2 * v - 1).toNat := by
  obtain ⟨w, rfl⟩ : ∃ x, w = x + 1 := ⟨w - 1, by omega⟩
  simp only [Nat.add_sub_cancel] at hlo hhi ⊢
  have hpowI : (2 : Int) ^ (w + 1) = 2 * 2 ^ w := by ring
  have hcast : ((2 ^ w : Nat) : Int) = (2 : Int) ^ w := by push_cast; ring
  have hcast1 : ((2 ^ (w + 1) : Nat) : Int) = (2 : Int) ^ (w + 1) := by push_cast; ring
  have hposw : (0 : Int) < 2 ^ (w + 1) := by positivity
  have hposh : (0 : Int) < 2 ^ w := by positivity
  unfold zzEnc
  simp only [Nat.add_sub_cancel]
  rcases le_or_lt 0 v with h0 | h0
  · have h1 : toUIntW (w + 1) v = v.toNat := by
      unfold toUIntW
      rw [Int.emod_eq_of_lt h0 (by omega)]
    have h2 : Int.fdiv v ((2 : Int) ^ w) = 0 := by
      rw [Int.fdiv_eq_ediv _ (by positivity)]
      exact Int.ediv_eq_zero_of_lt h0 hhi
    rw [h1, h2, if_pos h0]
    have h3 : 2 * v.toNat < 2 ^ (w + 1) := by omega
    simp only [toUIntW, Int.zero_emod, Int.toNat_zero, Nat.xor_zero]
    rw [Nat.mod_eq_of_lt h3]
    omega
  · have h1 : (toUIntW (w + 1) v : Int) = v + 2 ^ (w + 1) := by
      unfold toUIntW
      have he : v % (2 : Int) ^ (w + 1) = v + 2 ^ (w + 1) := by
        have h' := Int.add_mul_emod_self_left (a := v) (b := (2 : Int) ^ (w + 1)) (c := 1)
        rw [mul_one] at h'
        rw [← h', Int.emod_eq_of_lt (by omega) (by omega)]
      rw [he, Int.toNat_of_nonneg (by omega)]
    have h2 : Int.fdiv v ((2 : Int) ^ w) = -1 := by
      rw [Int.fdiv_eq_ediv _ (by positivity)]
      have hqr : v / (2 : Int) ^ w = -1 ∧ v % (2 : Int) ^ w = v + 2 ^ w :=
        (Int.ediv_emod_unique hposh).mpr ⟨by omega, by omega, by omega⟩
      exact hqr.1
    have h3 : (toUIntW (w + 1) (-1) : Int) = 2 ^ (w + 1) - 1 := by
      unfold toUIntW
      have he : (-1 : Int) % (2 : Int) ^ (w + 1) = 2 ^ (w + 1) - 1 := by
        have h' := Int.add_mul_emod_self_left (a := (-1 : Int)) (b := (2 : Int) ^ (w + 1)) (c := 1)
        rw [mul_one] at h'
        rw [← h', Int.emod_eq_of_lt (by omega) (by omega)]
        ring
      rw [he, Int.toNat_of_nonneg (by omega)]
    rw [h2, if_neg (by intro hcon; omega)]
    have hn : toUIntW (w + 1) v = (v + (2 : Int) ^ (w + 1)).toNat := by omega
    have hnpat : (2 * toUIntW (w + 1) v) % 2 ^ (w + 1) = (2 * v + (2 : Int) ^ (w + 1)).toNat := by
      rw [hn]
      have hNge : 2 ^ (w + 1) ≤ 2 * (v + 2 ^ (w + 1)).toNat := by omega
      have hNlt : 2 * (v + 2 ^ (w + 1)).toNat - 2 ^ (w + 1) < 2 ^ (w + 1) := by omega
      rw [Nat.mod_eq_sub_mod hNge, Nat.mod_eq_of_lt hNlt]
      omega
    rw [hnpat]
    have h4 : toUIntW (w + 1) (-1) = 2 ^ (w + 1) - 1 := by omega
    rw [h4, Nat.xor_comm, xor_ones (w + 1) _ (by omega)]
    omega



theorem zz_dec_eq (w : Nat) (hw : 1 ≤ w) (u : Nat) (hu : u < 2 ^ w) :
    zzDec w u = if u % 2 = 0 then ((u / 2 : Nat) : Int) else -((u / 2 : Nat) : Int) - 1 := by
  obtain ⟨w, rfl⟩ : ∃ x, w = x + 1 := ⟨w - 1, by omega⟩
  have hcast : ((2 ^ w : Nat) : Int) = (2 : Int) ^ w := by push_cast; ring
  have hcast1 : ((2 ^ (w + 1) : Nat) : Int) = (2 : Int) ^ (w + 1) := by push_cast; ring
  have hpowI : (2 : Int) ^ (w + 1) = 2 * 2 ^ w := by ring
  have hpowN : (2 : Nat) ^ (w + 1) = 2 * 2 ^ w := by ring
  have honeN : (1 : Nat) ≤ 2 ^ w := Nat.one_le_two_pow
  unfold zzDec
  simp only [Nat.add_sub_cancel]
  have hb : toUIntW (w + 1) (Int.fdiv (ofUIntW (w + 1) u) 2) &&& (2 ^ w - 1) = u / 2 := by
    by_cases hsmall : u < 2 ^ w
    · rw [ofUIntW, if_pos (by simpa using hsmall)]
      have hfd : Int.fdiv (u : Int) 2 = ((u / 2 : Nat) : Int) := by
        rw [show ((u : Nat) : Int) = ((u : Nat) : Int) from rfl]
        exact (Int.ofNat_fdiv u 2).symm
      rw [hfd]
      rw [toUIntW, Int.emod_eq_of_lt (by omega) (by omega), Int.toNat_natCast,
        Nat.and_pow_two_sub_one_eq_mod, Nat.mod_eq_of_lt (by omega)]
    · rw [ofUIntW, if_neg (by simpa using hsmall)]
      have hqr : ((u : Int) - 2 ^ (w + 1)) / 2 = ((u / 2 : Nat) : Int) - 2 ^ w ∧
          ((u : Int) - 2 ^ (w + 1)) % 2 = ((u % 2 : Nat) : Int) :=
        (Int.ediv_emod_unique (by norm_num)).mpr ⟨by omega, by omega, by omega⟩
      rw [Int.fdiv_eq_ediv _ (by norm_num), hqr.1]
      have hmod : (((u / 2 : Nat) : Int) - 2 ^ w) % 2 ^ (w + 1) =
          ((u / 2 : Nat) : Int) + 2 ^ w := by
        have h' := Int.add_mul_emod_self_left (a := ((u / 2 : Nat) : Int) - 2 ^ w)
          (b := (2 : Int) ^ (w + 1)) (c := 1)
        rw [mul_one] at h'
        rw [← h', Int.emod_eq_of_lt (by omega) (by omega)]
        ring
      rw [toUIntW, hmod]
      have ht : (((u / 2 : Nat) : Int) + 2 ^ w).toNat = u / 2 + 2 ^ w := by omega
      rw [ht, Nat.and_pow_two_sub_one_eq_mod, Nat.add_mod_right, Nat.mod_eq_of_lt (by omega)]
  rw [hb, Nat.and_one_is_mod]
  rcases Nat.mod_two_eq_zero_or_one u with h2 | h2
  · rw [h2, if_pos rfl, Nat.sub_zero, Nat.mod_self, Nat.zero_xor, ofUIntW,
      if_pos (by simp only [Nat.add_sub_cancel]; omega)]
  · rw [h2, if_neg (by intro hcon; omega), Nat.mod_eq_of_lt (by omega),
      xor_ones (w + 1) _ (by omega), ofUIntW,
      if_neg (by simp only [Nat.add_sub_cancel]; omega)]
    omega

theorem zz_roundtrip (w : Nat) (hw : 1 ≤ w) (v : Int)
    (hlo : -((2 : Int) ^ (w - 1)) ≤ v) (hhi : v < (2 : Int) ^ (w - 1)) :
    zzDec w (zzEnc w v) = v := by
  have hsp : w - 1 + 1 = w := by omega
  have hpowI : (2 : Int) ^ w = 2 * 2 ^ (w - 1) := by
    conv_lhs => rw [← hsp]
    rw [pow_succ]
    ring
  have hpowN : (2 : Nat) ^ w = 2 * 2 ^ (w - 1) := by
    conv_lhs => rw [← hsp]
    rw [pow_succ]
    ring
  have hcast : ((2 ^ (w - 1) : Nat) : Int) = (2 : Int) ^ (w - 1) := by push_cast; ring
  rw [zz_enc_eq w hw v hlo hhi]
  rcases le_or_lt 0 v with h0 | h0
  · rw [if_pos h0, zz_dec_eq w hw _ (by omega), if_pos (by omega)]
    omega
  · rw [if_neg (by intro hcon; omega), zz_dec_eq w hw _ (by omega), if_neg (by intro hcon; omega)]
    omega



/-- int64ToUint64 from the sources: the zigzag mapping
`uint64((v << 1) ^ (v >> 63))` on a 64-bit signed value, expressed on
two's-complement bit patterns: the wrapped doubling of v's pattern,
xored with the pattern of the arithmetic shift `v >> 63` (floor division
by 2^63, which is 0 or -1). -/
def int64ToUint64 (v : Int) : Nat :=
  ((2 * toUIntW 64 v) % 2 ^ 64) ^^^ toUIntW 64 (Int.fdiv v ((2 : Int) ^ 63))

/-- uint64ToInt64 from the sources: `v := int64(u)`, then
`(-(v & 1)) ^ (v>>1)&0x7FFFFFFFFFFFFFFF`; the pattern of `-(v & 1)` is
`(2^64 - (u &&& 1)) % 2^64`, and `(v >> 1)` is the arithmetic shift
(floor division by 2), masked to its low 63 bits. -/
def uint64ToInt64 (u : Nat) : Int :=
  ofUIntW 64 (((2 ^ 64 - (u &&& 1)) % 2 ^ 64) ^^^
    (toUIntW 64 (Int.fdiv (ofUIntW 64 u) 2) &&& (2 ^ 63 - 1)))

/-- int32ToUint32 from the sources: `uint32((v << 1) ^ (v >> 31))`. -/
def int32ToUint32 (v : Int) : Nat :=
  ((2 * toUIntW 32 v) % 2 ^ 32) ^^^ toUIntW 32 (Int.fdiv v ((2 : Int) ^ 31))

/-- uint32ToInt32 from the sources: `(-(v & 1)) ^ (v>>1)&0x7FFFFFFF`. -/
def uint32ToInt32 (u : Nat) : Int :=
  ofUIntW 32 (((2 ^ 32 - (u &&& 1)) % 2 ^ 32) ^^^
    (toUIntW 32 (Int.fdiv (ofUIntW 32 u) 2) &&& (2 ^ 31 - 1)))

/-- int16ToUint16 from the sources: `uint16((v << 1) ^ (v >> 15))`. -/
def int16ToUint16 (v : Int) : Nat :=
  ((2 * toUIntW 16 v) % 2 ^ 16) ^^^ toUIntW 16 (Int.fdiv v ((2 : Int) ^ 15))

/-- uint16ToInt16 from the sources: `(-(v & 1)) ^ (v>>1)&0x7FFF`. -/
def uint16ToInt16 (u : Nat) : Int :=
  ofUIntW 16 (((2 ^ 16 - (u &&& 1)) % 2 ^ 16) ^^^
    (toUIntW 16 (Int.fdiv (ofUIntW 16 u) 2) &&& (2 ^ 15 - 1)))

/-- C2: for each signed width the zigzag mapping sends 0 to 0, -1 to 1
and 1 to 2, and the decode-side mapping is its exact inverse on every
representable signed value of that width. -/
theorem c2_zigzag_roundtrip :
    (∀ v : Int, -(2 ^ 15) ≤ v → v < 2 ^ 15 → uint16ToInt16 (int16ToUint16 v) = v) ∧
    (∀ v : Int, -(2 ^ 31) ≤ v → v < 2 ^ 31 → uint32ToInt32 (int32ToUint32 v) = v) ∧
    (∀ v : Int, -(2 ^ 63) ≤ v → v < 2 ^ 63 → uint64ToInt64 (int64ToUint64 v) = v) ∧
    int16ToUint16 0 = 0 ∧ int16ToUint16 (-1) = 1 ∧ int16ToUint16 1 = 2 ∧
    int32ToUint32 0 = 0 ∧ int32ToUint32 (-1) = 1 ∧ int32ToUint32 1 = 2 ∧
    int64ToUint64 0 = 0 ∧ int64ToUint64 (-1) = 1 ∧ int64ToUint64 1 = 2 := by
  refine ⟨fun v h1 h2 => ?_, fun v h1 h2 => ?_, fun v h1 h2 => ?_,
    by decide, by decide, by decide, by decide, by decide, by decide,
    by decide, by decide, by decide⟩
  · exact zz_roundtrip 16 (by norm_num) v (by norm_num; exact h1) (by norm_num; exact h2)
  · exact zz_roundtrip 32 (by norm_num) v (by norm_num; exact h1) (by norm_num; exact h2)
  · exact zz_roundtrip 64 (by norm_num) v (by norm_num; exact h1) (by norm_num; exact h2)

/-- Witness for c2_zigzag_roundtrip at concrete inputs. -/
theorem c2_zigzag_roundtrip_witness :
    uint16ToInt16 (int16ToUint16 (-5)) = -5 ∧
    uint32ToInt32 (int32ToUint32 1000) = 1000 ∧
    uint64ToInt64 (int64ToUint64 (-(2 ^ 62))) = -(2 ^ 62) :=
  ⟨c2_zigzag_roundtrip.1 (-5) (by norm_num) (by norm_num),
   c2_zigzag_roundtrip.2.1 1000 (by norm_num) (by norm_num),
   c2_zigzag_roundtrip.2.2.1 (-(2 ^ 62)) (by norm_num) (by norm_num)⟩



/-- Encoder session state, from the sources: target buffer, base offset,
and the boolean bit cursor (boolPos is the index in buf of the current
control byte; boolBit the next bit mask). -/
structure Encoder where
  buf : List Nat
  off : Nat
  boolPos : Nat
  boolBit : Nat
  deriving Repr, DecidableEq

/-- Modelled from the spec: encoder-side boolean packing (the encoder
primitive file is not among the sources). Booleans are packed 8 per
control byte, least-significant bit first; a fresh control byte is
appended every 8th boolean in call order, shared across the whole
top-level call rather than scoped per field; the bit mask is a byte, so
it wraps to 0 after the 8th bit. -/
def Encoder.encBool (e : Encoder) (v : Bool) : Encoder :=
  let e1 :=
    if e.boolBit = 0 then
      { e with buf := e.buf ++ [0], boolPos := e.buf.length, boolBit := 1 }
    else e
  let e2 :=
    if v then
      { e1 with buf := e1.buf.set e1.boolPos (e1.buf.getD e1.boolPos 0 ||| e1.boolBit) }
    else e1
  { e2 with boolBit := (e2.boolBit <<< 1) % 2 ^ 8 }

/-- Encoding a sequence of booleans in call order. -/
def encBools (e : Encoder) (l : List Bool) : Encoder := l.foldl Encoder.encBool e

/-- Decoding n booleans in call order. -/
def decBools : Nat → Decoder → List Bool × Decoder
  | 0, d => ([], d)
  | n + 1, d =>
    let r := d.decBool
    let rs := decBools n r.2
    (r.1 :: rs.1, rs.2)

/-- Encoder.reset from the sources: hands back the buffer and zeroes the
boolean cursor for the next top-level call. -/
def Encoder.reset (e : Encoder) : List Nat × Encoder :=
  (e.buf, { e with buf := e.buf.take e.off, boolBit := 0, boolPos := 0 })

/-- C3: nine booleans [t,f,t,f,t,f,t,f,t] occupy exactly 2 control bytes
(the first alternating pattern 0b01010101 = 85, the 9th boolean as bit 0
of the second byte); the decoder reads them back consuming exactly those
2 bytes; and both session resets return the boolean bit cursor to byte
0, bit 0, so control-byte groups never leak across top-level calls. -/
theorem c3_bool_packing :
    (encBools ⟨[], 0, 0, 0⟩
        [true, false, true, false, true, false, true, false, true]).buf = [85, 1] ∧
    ([85, 1] : List Nat).length = 2 ∧
    Nat.testBit 1 0 = true ∧
    decBools 9 ⟨[85, 1], 0, 0, 0⟩ =
      ([true, false, true, false, true, false, true, false, true], ⟨[85, 1], 2, 1, 2⟩) ∧
    (∀ d : Decoder, (Decoder.reset d).2.index = 0 ∧ (Decoder.reset d).2.boolPos = 0 ∧
      (Decoder.reset d).2.boolBit = 0) ∧
    (∀ e : Encoder, (Encoder.reset e).2.boolPos = 0 ∧ (Encoder.reset e).2.boolBit = 0) :=
  ⟨by decide, by decide, by decide, by decide,
   fun d => ⟨rfl, rfl, rfl⟩, fun e => ⟨rfl, rfl⟩⟩

/-- Slice header layout from unsafe.go: data pointer (none models the
nil pointer; allocated backing arrays are named by numeric ids), length
and capacity. -/
structure sliceHeader where
  data : Option Nat
  len : Nat
  cap : Nat
  deriving Repr, DecidableEq

/-- Slice decode engine from buildDecEngine (Slice case): read the
presence boolean; when present read the element count with decLength,
then reuse the existing backing array (same data pointer and capacity,
only the length set) unless the destination is nil or its capacity is
below the count, in which case a fresh backing array of exactly count
elements is installed; when absent, a non-nil destination is reset to
the nil header. Element decoding is abstracted; freshId names the array
a call to reflect.MakeSlice would allocate. -/
def decSlice (d : Decoder) (h : sliceHeader) (freshId : Nat) : sliceHeader × Decoder :=
  let r := d.decIsNotNil
  if r.1 then
    let r2 := r.2.decLength
    if h.data = none ∨ h.cap < r2.1 then
      ({ data := some freshId, len := r2.1, cap := r2.1 }, r2.2)
    else ({ h with len := r2.1 }, r2.2)
  else if h.data ≠ none then ({ data := none, len := 0, cap := 0 }, r.2)
  else (h, r.2)


/-- C6: the slice decoder reuses the destination backing storage exactly
when the destination is non-nil with capacity at least the decoded
count (only the length is set); otherwise it installs a fresh backing
array of exactly count elements; and a wire-absent slice resets a
backed destination to the nil header. -/
theorem c6_slice_reuse :
    (∀ d h fid, (Decoder.decIsNotNil d).1 = true → h.data ≠ none →
      (((Decoder.decIsNotNil d).2.decLength)).1 ≤ h.cap →
      (decSlice d h fid).1 = { h with len := ((Decoder.decIsNotNil d).2.decLength).1 }) ∧
    (∀ d h fid, (Decoder.decIsNotNil d).1 = true →
      (h.data = none ∨ h.cap < ((Decoder.decIsNotNil d).2.decLength).1) →
      (decSlice d h fid).1 = { data := some fid, len := ((Decoder.decIsNotNil d).2.decLength).1,
                               cap := ((Decoder.decIsNotNil d).2.decLength).1 }) ∧
    (∀ d h fid, (Decoder.decIsNotNil d).1 = false → h.data ≠ none →
      (decSlice d h fid).1 = { data := none, len := 0, cap := 0 }) := by
  refine ⟨fun d h fid h1 h2 h3 => ?_, fun d h fid h1 h2 => ?_, fun d h fid h1 h2 => ?_⟩
  · rw [decSlice]
    simp only [h1, if_true]
    rw [if_neg (by push_neg; exact ⟨h2, by omega⟩)]
  · rw [decSlice]
    simp only [h1, if_true]
    rw [if_pos h2]
  · rw [decSlice]
    simp only [h1, Bool.false_eq_true, if_false]
    rw [if_pos h2]

/-- Witness for c6_slice_reuse at concrete inputs: the wire carries a
present slice of count 2; a destination with capacity 5 is reused, one
with capacity 1 is reallocated, and an absent slice resets a backed
destination. -/
theorem c6_slice_reuse_witness :
    (decSlice ⟨[3, 2], 0, 0, 0⟩ ⟨some 7, 5, 5⟩ 9).1 = ⟨some 7, 2, 5⟩ ∧
    (decSlice ⟨[3, 2], 0, 0, 0⟩ ⟨some 7, 1, 1⟩ 9).1 = ⟨some 9, 2, 2⟩ ∧
    (decSlice ⟨[0], 0, 0, 0⟩ ⟨some 7, 1, 1⟩ 9).1 = ⟨none, 0, 0⟩ :=
  ⟨c6_slice_reuse.1 ⟨[3, 2], 0, 0, 0⟩ ⟨some 7, 5, 5⟩ 9 (by decide) (by decide) (by decide),
   c6_slice_reuse.2.1 ⟨[3, 2], 0, 0, 0⟩ ⟨some 7, 1, 1⟩ 9 (by decide) (by decide),
   c6_slice_reuse.2.2 ⟨[0], 0, 0, 0⟩ ⟨some 7, 1, 1⟩ 9 (by decide) (by decide)⟩



theorem lookup_isSome_iff {α β : Type} [BEq α] [LawfulBEq α] (l : List (α × β)) (a : α) :
    (List.lookup a l).isSome ↔ a ∈ l.map Prod.fst := by
  induction l with
  | nil => simp [List.lookup]
  | cons p l ih =>
    obtain ⟨k, v⟩ := p
    by_cases h : a = k
    · subst h
      simp [List.lookup]
    · rw [List.lookup, show (a == k) = false from beq_eq_false_iff_ne.mpr h]
      simp only [List.map_cons, List.mem_cons]
      rw [ih]
      simp [h]

theorem lookup_of_mem_nodup {α β : Type} [BEq α] [LawfulBEq α] (l : List (α × β)) (a : α) (b : β)
    (hmem : (a, b) ∈ l) (hnd : (l.map Prod.fst).Nodup) : List.lookup a l = some b := by
  induction l with
  | nil => simp at hmem
  | cons p l ih =>
    obtain ⟨k, v⟩ := p
    simp only [List.map_cons, List.nodup_cons] at hnd
    rcases List.mem_cons.mp hmem with h | h
    · obtain ⟨h1, h2⟩ := Prod.mk.injEq .. ▸ h
      cases h
      simp [List.lookup]
    · have hne : a ≠ k := by
        rintro rfl
        exact hnd.1 (List.mem_map.mpr ⟨(a, b), h, rfl⟩)
      rw [List.lookup, show (a == k) = false from beq_eq_false_iff_ne.mpr hne]
      exact ih h hnd.2

/-- Interface decode dispatch from buildDecEngine (Interface case): read
the presence boolean; when present, read the length-prefixed concrete
type name and resolve it in the name-to-type registry table; an
unregistered name is a fatal, non-recoverable error carrying the unknown
name (the source panics with "unknown typ:" + name); a registered name
resolves to the registered concrete type, whose engine then decodes the
value (engine resolution is represented by the resolved type id). -/
def decInterface (reg : List (List Nat × Nat)) (d : Decoder) :
    Except (List Nat) (Option Nat × Decoder) :=
  let r := d.decIsNotNil
  if r.1 then
    let s := decString r.2
    match List.lookup s.1 reg with
    | none => .error s.1
    | some t => .ok (some t, s.2)
  else .ok (none, r.2)

/-- C7: an unregistered wire name makes interface decode fail with the
fatal named-type-not-found error naming the unknown type, never
resolving an engine; a registered name resolves to exactly the
registered concrete type. -/
theorem c7_interface_unknown_name :
    (∀ reg d, (Decoder.decIsNotNil d).1 = true →
      List.lookup (decString (Decoder.decIsNotNil d).2).1 reg = none →
      decInterface reg d = .error (decString (Decoder.decIsNotNil d).2).1) ∧
    (∀ reg d t, (Decoder.decIsNotNil d).1 = true →
      List.lookup (decString (Decoder.decIsNotNil d).2).1 reg = some t →
      decInterface reg d = .ok (some t, (decString (Decoder.decIsNotNil d).2).2)) ∧
    (∀ (reg : List (List Nat × Nat)) nm t, (nm, t) ∈ reg → (reg.map Prod.fst).Nodup →
      List.lookup nm reg = some t) := by
  refine ⟨fun reg d h1 h2 => ?_, fun reg d t h1 h2 => ?_,
    fun reg nm t hm hn => lookup_of_mem_nodup reg nm t hm hn⟩
  · rw [decInterface]
    simp only [h1, if_true, h2]
  · rw [decInterface]
    simp only [h1, if_true, h2]

/-- Witness for c7_interface_unknown_name: the wire holds a present
interface value whose type name is the single byte 107; with an empty
registry decode fails naming [107]; with [107] registered as type 42 it
resolves to 42. -/
theorem c7_interface_unknown_name_witness :
    decInterface [] ⟨[1, 1, 107], 0, 0, 0⟩ = .error [107] ∧
    decInterface [([107], 42)] ⟨[1, 1, 107], 0, 0, 0⟩ =
      .ok (some 42, (decString (Decoder.decIsNotNil ⟨[1, 1, 107], 0, 0, 0⟩).2).2) ∧
    List.lookup [107] [([107], 42)] = some 42 :=
  ⟨c7_interface_unknown_name.1 [] ⟨[1, 1, 107], 0, 0, 0⟩ (by decide) (by decide),
   c7_interface_unknown_name.2.1 [([107], 42)] ⟨[1, 1, 107], 0, 0, 0⟩ 42 (by decide) (by decide),
   c7_interface_unknown_name.2.2 [([107], 42)] [107] 42 (by decide) (by decide)⟩



/-- Fatal registration failures of RegisterName, in source order. -/
inductive RegErr where
  | emptyName
  | nilType
  | dupType (t : Nat)
  | dupName (n : List Nat)
  deriving Repr, DecidableEq

/-- Registry state from register.go: the two global association tables
type2name and name2type. Types are modelled by numeric ids; names by
byte lists. -/
structure Registry where
  type2name : List (Nat × List Nat)
  name2type : List (List Nat × Nat)
  deriving Repr, DecidableEq

/-- RegisterName from register.go: panics on an empty name, a nil or
invalid type (modelled as none), a type that already has an entry, or a
name that already has an entry; otherwise it adds exactly the one pair
to both tables. -/
def RegisterName (name : List Nat) (rt : Option Nat) (r : Registry) : Except RegErr Registry :=
  if name = [] then .error .emptyName
  else
    match rt with
    | none => .error .nilType
    | some t =>
      if (List.lookup t r.type2name).isSome then .error (.dupType t)
      else if (List.lookup name r.name2type).isSome then .error (.dupName name)
      else .ok { type2name := (t, name) :: r.type2name,
                 name2type := (name, t) :: r.name2type }

/-- Registry well-formedness: the two tables are mutually inverse and
their key columns are duplicate-free, so the name-type mapping is
strictly 1:1. -/
def Registry.Inv (r : Registry) : Prop :=
  (∀ t n, (t, n) ∈ r.type2name ↔ (n, t) ∈ r.name2type) ∧
  (r.type2name.map Prod.fst).Nodup ∧ (r.name2type.map Prod.fst).Nodup

/-- Applying one registration; a panic leaves the tables unchanged. -/
def applyRegister (r : Registry) (op : List Nat × Option Nat) : Registry :=
  match RegisterName op.1 op.2 r with
  | .ok r' => r'
  | .error _ => r

/-- Applying a whole sequence of registrations to the empty registry. -/
def applyRegisters (ops : List (List Nat × Option Nat)) : Registry :=
  ops.foldl applyRegister ⟨[], []⟩

theorem registerName_inv (name : List Nat) (rt : Option Nat) (r r' : Registry)
    (hinv : r.Inv) (h : RegisterName name rt r = .ok r') : r'.Inv := by
  unfold RegisterName at h
  by_cases hname : name = []
  · rw [if_pos hname] at h
    simp at h
  rw [if_neg hname] at h
  rcases rt with _ | t
  · simp at h
  simp only at h
  by_cases h2 : (List.lookup t r.type2name).isSome
  · rw [if_pos h2] at h
    simp at h
  rw [if_neg h2] at h
  by_cases h3 : (List.lookup name r.name2type).isSome
  · rw [if_pos h3] at h
    simp at h
  rw [if_neg h3] at h
  rw [Except.ok.injEq] at h
  subst h
  obtain ⟨hiff, hnd1, hnd2⟩ := hinv
  unfold Registry.Inv
  refine ⟨fun t' n' => ?_, ?_, ?_⟩
  · simp only [List.mem_cons, Prod.mk.injEq]
    rw [hiff t' n']
    tauto
  · simp only [List.map_cons, List.nodup_cons]
    refine ⟨fun hmem => ?_, hnd1⟩
    rw [← lookup_isSome_iff] at hmem
    simp [hmem] at h2
  · simp only [List.map_cons, List.nodup_cons]
    refine ⟨fun hmem => ?_, hnd2⟩
    rw [← lookup_isSome_iff] at hmem
    simp [hmem] at h3

theorem applyRegister_inv (r : Registry) (op : List Nat × Option Nat) (hinv : r.Inv) :
    (applyRegister r op).Inv := by
  unfold applyRegister
  rcases hr : RegisterName op.1 op.2 r with e | r'
  · exact hinv
  · exact registerName_inv op.1 op.2 r r' hinv hr

/-- C8: RegisterName fails whenever the type or the name already has an
entry (and on empty names and nil types), succeeds exactly otherwise by
appending the single pair to both tables, and every sequence of
registrations starting from the empty registry keeps the two tables
mutually inverse with duplicate-free keys — a strictly 1:1 mapping. -/
theorem c8_registry_one_to_one :
    (∀ name t r, name ≠ [] →
      (t ∈ r.type2name.map Prod.fst ∨ name ∈ r.name2type.map Prod.fst) →
      ∃ e, RegisterName name (some t) r = .error e) ∧
    (∀ name rt r r', RegisterName name rt r = .ok r' →
      ∃ t, rt = some t ∧ name ≠ [] ∧
        t ∉ r.type2name.map Prod.fst ∧ name ∉ r.name2type.map Prod.fst ∧
        r'.type2name = (t, name) :: r.type2name ∧
        r'.name2type = (name, t) :: r.name2type) ∧
    (∀ ops, (applyRegisters ops).Inv) := by
  refine ⟨fun name t r h1 h2 => ?_, fun name rt r r' h => ?_, fun ops => ?_⟩
  · unfold RegisterName
    rw [if_neg h1]
    simp only
    rcases h2 with h2 | h2
    · rw [← lookup_isSome_iff] at h2
      rw [if_pos h2]
      exact ⟨_, rfl⟩
    · rw [← lookup_isSome_iff] at h2
      by_cases h3 : (List.lookup t r.type2name).isSome
      · rw [if_pos h3]
        exact ⟨_, rfl⟩
      · rw [if_neg h3, if_pos h2]
        exact ⟨_, rfl⟩
  · unfold RegisterName at h
    by_cases hname : name = []
    · rw [if_pos hname] at h
      simp at h
    rw [if_neg hname] at h
    rcases rt with _ | t
    · simp at h
    simp only at h
    by_cases h2 : (List.lookup t r.type2name).isSome
    · rw [if_pos h2] at h
      simp at h
    rw [if_neg h2] at h
    by_cases h3 : (List.lookup name r.name2type).isSome
    · rw [if_pos h3] at h
      simp at h
    rw [if_neg h3] at h
    rw [Except.ok.injEq] at h
    subst h
    exact ⟨t, rfl, hname, by rw [← lookup_isSome_iff]; simpa using h2,
      by rw [← lookup_isSome_iff]; simpa using h3, rfl, rfl⟩
  · unfold applyRegisters
    have hbase : (Registry.mk [] []).Inv := ⟨by simp, by simp, by simp⟩
    generalize hstart : (Registry.mk [] []) = r0 at *
    clear hstart
    induction ops generalizing r0 with
    | nil => simpa using hbase
    | cons op ops ih =>
      simp only [List.foldl_cons]
      exact ih _ (applyRegister_inv r0 op hbase)

/-- Witness for c8_registry_one_to_one at concrete inputs. -/
theorem c8_registry_one_to_one_witness :
    (∃ e, RegisterName [107] (some 5) ⟨[(5, [110])], [([110], 5)]⟩ = .error e) ∧
    (∃ t, (some 5 : Option Nat) = some t ∧ ([107] : List Nat) ≠ [] ∧
      t ∉ ([] : List (Nat × List Nat)).map Prod.fst ∧
      [107] ∉ ([] : List (List Nat × Nat)).map Prod.fst ∧
      ((t, [107]) :: [] : List (Nat × List Nat)) = (t, [107]) :: [] ∧
      (([107], t) :: [] : List (List Nat × Nat)) = ([107], t) :: []) ∧
    (applyRegisters [([107], some 5), ([107], some 6), ([110], some 5)]).Inv := by
  refine ⟨c8_registry_one_to_one.1 [107] 5 ⟨[(5, [110])], [([110], 5)]⟩ (by decide)
      (Or.inl (by decide)), ?_, c8_registry_one_to_one.2.2 _⟩
  have h := c8_registry_one_to_one.2.1 [107] (some 5) ⟨[], []⟩
    ⟨[(5, [107])], [([107], 5)]⟩ (by rfl)
  simp at h
  simp [h]



/-- Engine compilation from buildDecEngine/buildEncEngine, abstracted to
its recursion structure over the type graph: types are numeric ids,
`comps t` lists the component types the compiler recurses into for t
(pointee, element, key/value, fields), and the cache is the list of
types whose engine slot has been stored. Mirroring the source, a cache
hit returns immediately; otherwise the engine for t is stored in the
cache first and only then do the deferred component builds run (Go's
defer executes them after the map assignment), so a component that
recurses back to t hits the already-reserved slot. The fuel argument
makes the Go recursion a total function; running out of fuel returns
none. -/
def buildDecEngine (comps : Nat → List Nat) : Nat → List Nat → Nat → Option (List Nat)
  | 0, _, _ => none
  | fuel + 1, cache, t =>
    if t ∈ cache then some cache
    else (comps t).foldlM (buildDecEngine comps fuel) (t :: cache)

theorem foldlM_some_of_subset {comps : Nat → List Nat} {fuel : Nat}
    (P : ∀ cache t c', buildDecEngine comps fuel cache t = some c' → cache ⊆ c') :
    ∀ tys cache c', List.foldlM (buildDecEngine comps fuel) cache tys = some c' →
      cache ⊆ c' := by
  intro tys
  induction tys with
  | nil =>
    intro cache c' h
    simp only [List.foldlM_nil, Option.pure_def, Option.some.injEq] at h
    subst h
    exact fun x hx => hx
  | cons ty tys ih =>
    intro cache c' h
    simp only [List.foldlM_cons, Option.bind_eq_bind] at h
    rcases hmid : buildDecEngine comps fuel cache ty with _ | mid
    · rw [hmid] at h
      simp at h
    · rw [hmid] at h
      simp only [Option.some_bind] at h
      exact fun x hx => ih mid c' h (P cache ty mid hmid hx)

/-- Every successful build extends the cache. -/
theorem buildDecEngine_subset (comps : Nat → List Nat) :
    ∀ fuel cache t c', buildDecEngine comps fuel cache t = some c' → cache ⊆ c' := by
  intro fuel
  induction fuel with
  | zero => intro cache t c' h; simp [buildDecEngine] at h
  | succ fuel ih =>
    intro cache t c' h
    rw [buildDecEngine] at h
    split_ifs at h with hmem
    · simp only [Option.some.injEq] at h
      subst h
      exact fun x hx => hx
    · intro x hx
      exact foldlM_some_of_subset ih (comps t) (t :: cache) c' h (List.mem_cons_of_mem t hx)



theorem nodup_subset_length {l1 l2 : List Nat} (h1 : l1.Nodup) (h2 : l1 ⊆ l2) :
    l1.length ≤ l2.length := (h1.subperm h2).length_le

/-- Every successful build keeps the cache duplicate-free and inside the
universe of types, provided the component map is closed over it. -/
theorem buildDecEngine_props (comps : Nat → List Nat) (univ : List Nat)
    (hcl : ∀ t ∈ univ, ∀ c ∈ comps t, c ∈ univ) :
    ∀ fuel cache t c', buildDecEngine comps fuel cache t = some c' →
      cache.Nodup → cache ⊆ univ → t ∈ univ → c'.Nodup ∧ c' ⊆ univ := by
  intro fuel
  induction fuel with
  | zero => intro cache t c' h; simp [buildDecEngine] at h
  | succ fuel ih =>
    have hfold : ∀ tys cache, cache.Nodup → cache ⊆ univ → (∀ ty ∈ tys, ty ∈ univ) →
        ∀ c', List.foldlM (buildDecEngine comps fuel) cache tys = some c' →
          c'.Nodup ∧ c' ⊆ univ := by
      intro tys
      induction tys with
      | nil =>
        intro cache hnd hsub _ c' h
        simp only [List.foldlM_nil, Option.pure_def, Option.some.injEq] at h
        subst h
        exact ⟨hnd, hsub⟩
      | cons ty tys ihf =>
        intro cache hnd hsub htys c' h
        simp only [List.foldlM_cons, Option.bind_eq_bind] at h
        rcases hmid : buildDecEngine comps fuel cache ty with _ | mid
        · rw [hmid] at h
          simp at h
        · rw [hmid] at h
          simp only [Option.some_bind] at h
          obtain ⟨hnd', hsub'⟩ := ih cache ty mid hmid hnd hsub (htys ty (by simp))
          exact ihf mid hnd' hsub' (fun u hu => htys u (by simp [hu])) c' h
    intro cache t c' h hnd hsub ht
    rw [buildDecEngine] at h
    split_ifs at h with hmem
    · simp only [Option.some.injEq] at h
      subst h
      exact ⟨hnd, hsub⟩
    · exact hfold (comps t) (t :: cache) (List.nodup_cons.mpr ⟨hmem, hnd⟩)
        (fun u hu => by rcases List.mem_cons.mp hu with rfl | hu; exact ht; exact hsub hu)
        (fun c hc => hcl t ht c hc) c' h

/-- With enough fuel (one unit more than the number of still-uncached
types) the build never runs out: compilation of any type in a closed
finite universe terminates. -/
theorem buildDecEngine_total (comps : Nat → List Nat) (univ : List Nat)
    (hcl : ∀ t ∈ univ, ∀ c ∈ comps t, c ∈ univ) :
    ∀ fuel cache t, cache.Nodup → cache ⊆ univ → t ∈ univ →
      univ.length < fuel + cache.length →
      (buildDecEngine comps fuel cache t).isSome := by
  intro fuel
  induction fuel with
  | zero =>
    intro cache t hnd hsub ht hlen
    have := nodup_subset_length hnd hsub
    omega
  | succ fuel ih =>
    have hfold : ∀ tys cache, cache.Nodup → cache ⊆ univ → (∀ ty ∈ tys, ty ∈ univ) →
        univ.length < fuel + cache.length →
        (List.foldlM (buildDecEngine comps fuel) cache tys).isSome := by
      intro tys
      induction tys with
      | nil => intro cache _ _ _ _; simp
      | cons ty tys ihf =>
        intro cache hnd hsub htys hlen
        simp only [List.foldlM_cons, Option.bind_eq_bind]
        have hsome := ih cache ty hnd hsub (htys ty (by simp)) hlen
        rcases hmid : buildDecEngine comps fuel cache ty with _ | mid
        · rw [hmid] at hsome
          simp at hsome
        · simp only [Option.some_bind]
          obtain ⟨hnd', hsub'⟩ := buildDecEngine_props comps univ hcl fuel cache ty mid hmid
            hnd hsub (htys ty (by simp))
          have hgrow := buildDecEngine_subset comps fuel cache ty mid hmid
          have hlen' := nodup_subset_length hnd hgrow
          exact ihf mid hnd' hsub' (fun u hu => htys u (by simp [hu])) (by omega)
    intro cache t hnd hsub ht hlen
    rw [buildDecEngine]
    split_ifs with hmem
    · simp
    · exact hfold (comps t) (t :: cache) (List.nodup_cons.mpr ⟨hmem, hnd⟩)
        (fun u hu => by rcases List.mem_cons.mp hu with rfl | hu; exact ht; exact hsub hu)
        (fun c hc => hcl t ht c hc) (by simp; omega)

/-- Component map of the self-referential record type: type 0 is the
record containing a pointer to itself, type 1 is that pointer type. -/
def selfRefComps : Nat → List Nat := fun t => if t = 0 then [1] else if t = 1 then [0] else []

/-- C5: compiling an engine for a self-referential type graph
terminates: the compiler stores the engine slot for the type being
compiled before the deferred component builds run, so a component
recursing back to the same type hits the reserved slot instead of
re-entering compilation; in any closed finite type universe the build
succeeds with fuel exceeding the number of uncached types, and the
record-with-pointer-to-itself graph compiles concretely. -/
theorem c5_selfref_compiles :
    (∀ (comps : Nat → List Nat) (univ : List Nat),
      (∀ t ∈ univ, ∀ c ∈ comps t, c ∈ univ) →
      ∀ fuel cache t, cache.Nodup → cache ⊆ univ → t ∈ univ →
        univ.length < fuel + cache.length →
        (buildDecEngine comps fuel cache t).isSome) ∧
    buildDecEngine selfRefComps 3 [] 0 = some [1, 0] ∧
    (∀ (comps : Nat → List Nat) fuel cache t, t ∉ cache →
      buildDecEngine comps (fuel + 1) cache t =
        (comps t).foldlM (buildDecEngine comps fuel) (t :: cache)) := by
  refine ⟨buildDecEngine_total, by decide, fun comps fuel cache t hmem => ?_⟩
  rw [buildDecEngine, if_neg hmem]

/-- Witness for c5_selfref_compiles: the general termination theorem
applied to the self-referential universe with empty cache. -/
theorem c5_selfref_compiles_witness :
    (buildDecEngine selfRefComps 3 [] 0).isSome :=
  c5_selfref_compiles.1 selfRefComps [0, 1] (by decide) 3 [] 0 (by simp)
    (by simp) (by simp) (by simp)



/-- Bitwise AND splits over independent aligned blocks. -/
theorem land_block {n a c : Nat} (b d : Nat) (ha : a < 2 ^ n) (hc : c < 2 ^ n) :
    (2 ^ n * b + a) &&& (2 ^ n * d + c) = 2 ^ n * (b &&& d) + (a &&& c) := by
  apply Nat.eq_of_testBit_eq
  intro j
  rw [Nat.testBit_and, Nat.testBit_mul_pow_two_add _ ha, Nat.testBit_mul_pow_two_add _ hc,
      Nat.testBit_mul_pow_two_add _ (Nat.and_lt_two_pow a hc)]
  by_cases hj : j < n <;> simp [hj, Nat.testBit_and]

/-- Bitwise OR splits over independent aligned blocks. -/
theorem lor_block {n a c : Nat} (b d : Nat) (ha : a < 2 ^ n) (hc : c < 2 ^ n) :
    (2 ^ n * b + a) ||| (2 ^ n * d + c) = 2 ^ n * (b ||| d) + (a ||| c) := by
  apply Nat.eq_of_testBit_eq
  intro j
  rw [Nat.testBit_or, Nat.testBit_mul_pow_two_add _ ha, Nat.testBit_mul_pow_two_add _ hc,
      Nat.testBit_mul_pow_two_add _ (Nat.or_lt_two_pow ha hc)]
  by_cases hj : j < n <;> simp [hj, Nat.testBit_or]

theorem land_ones {n a : Nat} (ha : a < 2 ^ n) : a &&& (2 ^ n - 1) = a := by
  rw [Nat.and_pow_two_sub_one_eq_mod, Nat.mod_eq_of_lt ha]



/-- reverse64Byte from the sources: three stages of shift-and-mask
swaps (halves, then 16-bit blocks, then bytes), each in wrapping uint64
arithmetic, reversing the byte order of a 64-bit value. -/
def reverse64Byte (u : Nat) : Nat :=
  let u1 := ((u <<< 32) % 2 ^ 64) ||| (u >>> 32)
  let u2 := (((u1 <<< 16) % 2 ^ 64) &&& 0xFFFF0000FFFF0000) ||| ((u1 >>> 16) &&& 0xFFFF0000FFFF)
  (((u2 <<< 8) % 2 ^ 64) &&& 0xFF00FF00FF00FF00) ||| ((u2 >>> 8) &&& 0xFF00FF00FF00FF)

/-- float64ToUint64 from the sources, on bit patterns: the in-memory
bit pattern of the float is byte-reversed before varint encoding. -/
def float64ToUint64 (p : Nat) : Nat := reverse64Byte p

/-- uint64ToFloat64 from the sources, on bit patterns: the wire value is
byte-reversed back into the float's bit pattern. -/
def uint64ToFloat64 (u : Nat) : Nat := reverse64Byte u

/-- reverse32Byte from the sources: two stages of shift-and-mask swaps
in wrapping uint32 arithmetic. -/
def reverse32Byte (u : Nat) : Nat :=
  let u1 := ((u <<< 16) % 2 ^ 32) ||| (u >>> 16)
  (((u1 <<< 8) % 2 ^ 32) &&& 0xFF00FF00) ||| ((u1 >>> 8) &&& 0xFF00FF)

/-- float32ToUint32 from the sources, on bit patterns. -/
def float32ToUint32 (p : Nat) : Nat := reverse32Byte p

/-- uint32ToFloat32 from the sources, on bit patterns. -/
def uint32ToFloat32 (u : Nat) : Nat := reverse32Byte u

theorem rev64_stage1 (v L H : Nat) (hL : L < 2 ^ 32) (hH : H < 2 ^ 32)
    (hv : v = 2 ^ 32 * H + L) :
    ((v <<< 32) % 2 ^ 64) ||| (v >>> 32) = 2 ^ 32 * L + H := by
  subst hv
  have h1 : (((2 ^ 32 * H + L) <<< 32)) % 2 ^ 64 = 2 ^ 32 * L := by
    rw [Nat.shiftLeft_eq]
    have he : (2 ^ 32 * H + L) * 2 ^ 32 = 2 ^ 64 * H + 2 ^ 32 * L := by ring
    rw [he]
    omega
  have h2 : (2 ^ 32 * H + L) >>> 32 = H := by
    rw [Nat.shiftRight_eq_div_pow]
    omega
  rw [h1, h2, ← Nat.mul_add_lt_is_or hH L]

theorem rev64_stage2 (v c0 c1 c2 c3 : Nat)
    (h0 : c0 < 2 ^ 16) (h1 : c1 < 2 ^ 16) (h2 : c2 < 2 ^ 16) (h3 : c3 < 2 ^ 16)
    (hv : v = 2 ^ 16 * (2 ^ 16 * (2 ^ 16 * c3 + c2) + c1) + c0) :
    (((v <<< 16) % 2 ^ 64) &&& 0xFFFF0000FFFF0000) ||| ((v >>> 16) &&& 0xFFFF0000FFFF) =
      2 ^ 16 * (2 ^ 16 * (2 ^ 16 * c2 + c3) + c0) + c1 := by
  subst hv
  have hA : ((2 ^ 16 * (2 ^ 16 * (2 ^ 16 * c3 + c2) + c1) + c0) <<< 16) % 2 ^ 64 =
      2 ^ 16 * (2 ^ 16 * (2 ^ 16 * c2 + c1) + c0) + 0 := by
    rw [Nat.shiftLeft_eq]
    have he : (2 ^ 16 * (2 ^ 16 * (2 ^ 16 * c3 + c2) + c1) + c0) * 2 ^ 16 =
        2 ^ 64 * c3 + (2 ^ 48 * c2 + 2 ^ 32 * c1 + 2 ^ 16 * c0) := by ring
    rw [he]
    have he2 : 2 ^ 16 * (2 ^ 16 * (2 ^ 16 * c2 + c1) + c0) + 0 =
        2 ^ 48 * c2 + 2 ^ 32 * c1 + 2 ^ 16 * c0 := by ring
    rw [he2]
    omega
  have hB : (2 ^ 16 * (2 ^ 16 * (2 ^ 16 * c3 + c2) + c1) + c0) >>> 16 =
      2 ^ 16 * (2 ^ 16 * (2 ^ 16 * 0 + c3) + c2) + c1 := by
    rw [Nat.shiftRight_eq_div_pow]
    have he : 2 ^ 16 * (2 ^ 16 * (2 ^ 16 * 0 + c3) + c2) + c1 =
        2 ^ 32 * c3 + 2 ^ 16 * c2 + c1 := by ring
    rw [he]
    omega
  have hM1 : (0xFFFF0000FFFF0000 : Nat) =
      2 ^ 16 * (2 ^ 16 * (2 ^ 16 * (2 ^ 16 - 1) + 0) + (2 ^ 16 - 1)) + 0 := by norm_num
  have hM2 : (0xFFFF0000FFFF : Nat) =
      2 ^ 16 * (2 ^ 16 * (2 ^ 16 * 0 + (2 ^ 16 - 1)) + 0) + (2 ^ 16 - 1) := by norm_num
  rw [hA, hB, hM1, hM2]
  rw [land_block _ _ (by omega) (by omega), land_block _ _ (by omega) (by omega),
      land_block _ _ (by omega) (by omega)]
  rw [land_block _ _ (by omega) (by omega), land_block _ _ (by omega) (by omega),
      land_block _ _ (by omega) (by omega)]
  simp only [Nat.and_zero, Nat.zero_and, land_ones h0, land_ones h1, land_ones h2, land_ones h3]
  rw [lor_block _ _ (by omega) (by omega), lor_block _ _ (by omega) (by omega),
      lor_block _ _ (by omega) (by omega)]
  simp only [Nat.zero_or, Nat.or_zero]


theorem rev64_stage3 (v d0 d1 d2 d3 d4 d5 d6 d7 : Nat)
    (h0 : d0 < 2 ^ 8) (h1 : d1 < 2 ^ 8) (h2 : d2 < 2 ^ 8) (h3 : d3 < 2 ^ 8)
    (h4 : d4 < 2 ^ 8) (h5 : d5 < 2 ^ 8) (h6 : d6 < 2 ^ 8) (h7 : d7 < 2 ^ 8)
    (hv : v = 2 ^ 8 * (2 ^ 8 * (2 ^ 8 * (2 ^ 8 * (2 ^ 8 * (2 ^ 8 * (2 ^ 8 * d7 + d6) + d5)
      + d4) + d3) + d2) + d1) + d0) :
    (((v <<< 8) % 2 ^ 64) &&& 0xFF00FF00FF00FF00) ||| ((v >>> 8) &&& 0xFF00FF00FF00FF) =
      2 ^ 8 * (2 ^ 8 * (2 ^ 8 * (2 ^ 8 * (2 ^ 8 * (2 ^ 8 * (2 ^ 8 * d6 + d7) + d4) + d5)
        + d2) + d3) + d0) + d1 := by
  subst hv
  have hA : ((2 ^ 8 * (2 ^ 8 * (2 ^ 8 * (2 ^ 8 * (2 ^ 8 * (2 ^ 8 * (2 ^ 8 * d7 + d6) + d5)
      + d4) + d3) + d2) + d1) + d0) <<< 8) % 2 ^ 64 =
      2 ^ 8 * (2 ^ 8 * (2 ^ 8 * (2 ^ 8 * (2 ^ 8 * (2 ^ 8 * (2 ^ 8 * d6 + d5) + d4) + d3)
        + d2) + d1) + d0) + 0 := by
    rw [Nat.shiftLeft_eq]
    have he : (2 ^ 8 * (2 ^ 8 * (2 ^ 8 * (2 ^ 8 * (2 ^ 8 * (2 ^ 8 * (2 ^ 8 * d7 + d6) + d5)
        + d4) + d3) + d2) + d1) + d0) * 2 ^ 8 =
        2 ^ 64 * d7 + (2 ^ 56 * d6 + 2 ^ 48 * d5 + 2 ^ 40 * d4 + 2 ^ 32 * d3 + 2 ^ 24 * d2 +
          2 ^ 16 * d1 + 2 ^ 8 * d0) := by ring
    have he2 : 2 ^ 8 * (2 ^ 8 * (2 ^ 8 * (2 ^ 8 * (2 ^ 8 * (2 ^ 8 * (2 ^ 8 * d6 + d5) + d4)
        + d3) + d2) + d1) + d0) + 0 =
        2 ^ 56 * d6 + 2 ^ 48 * d5 + 2 ^ 40 * d4 + 2 ^ 32 * d3 + 2 ^ 24 * d2 +
          2 ^ 16 * d1 + 2 ^ 8 * d0 := by ring
    rw [he, he2]
    omega
  have hB : (2 ^ 8 * (2 ^ 8 * (2 ^ 8 * (2 ^ 8 * (2 ^ 8 * (2 ^ 8 * (2 ^ 8 * d7 + d6) + d5)
      + d4) + d3) + d2) + d1) + d0) >>> 8 =
      2 ^ 8 * (2 ^ 8 * (2 ^ 8 * (2 ^ 8 * (2 ^ 8 * (2 ^ 8 * (2 ^ 8 * 0 + d7) + d6) + d5)
        + d4) + d3) + d2) + d1 := by
    rw [Nat.shiftRight_eq_div_pow]
    have he : 2 ^ 8 * (2 ^ 8 * (2 ^ 8 * (2 ^ 8 * (2 ^ 8 * (2 ^ 8 * (2 ^ 8 * 0 + d7) + d6)
        + d5) + d4) + d3) + d2) + d1 =
        2 ^ 48 * d7 + 2 ^ 40 * d6 + 2 ^ 32 * d5 + 2 ^ 24 * d4 + 2 ^ 16 * d3 +
          2 ^ 8 * d2 + d1 := by ring
    rw [he]
    omega
  have hM3 : (0xFF00FF00FF00FF00 : Nat) =
      2 ^ 8 * (2 ^ 8 * (2 ^ 8 * (2 ^ 8 * (2 ^ 8 * (2 ^ 8 * (2 ^ 8 * (2 ^ 8 - 1) + 0)
        + (2 ^ 8 - 1)) + 0) + (2 ^ 8 - 1)) + 0) + (2 ^ 8 - 1)) + 0 := by norm_num
  have hM4 : (0xFF00FF00FF00FF : Nat) =
      2 ^ 8 * (2 ^ 8 * (2 ^ 8 * (2 ^ 8 * (2 ^ 8 * (2 ^ 8 * (2 ^ 8 * 0 + (2 ^ 8 - 1)) + 0)
        + (2 ^ 8 - 1)) + 0) + (2 ^ 8 - 1)) + 0) + (2 ^ 8 - 1) := by norm_num
  rw [hA, hB, hM3, hM4]
  rw [land_block _ _ (by omega) (by omega), land_block _ _ (by omega) (by omega),
      land_block _ _ (by omega) (by omega), land_block _ _ (by omega) (by omega),
      land_block _ _ (by omega) (by omega), land_block _ _ (by omega) (by omega),
      land_block _ _ (by omega) (by omega)]
  rw [land_block _ _ (by omega) (by omega), land_block _ _ (by omega) (by omega),
      land_block _ _ (by omega) (by omega), land_block _ _ (by omega) (by omega),
      land_block _ _ (by omega) (by omega), land_block _ _ (by omega) (by omega),
      land_block _ _ (by omega) (by omega)]
  simp only [Nat.and_zero, Nat.zero_and, land_ones h0, land_ones h1, land_ones h2,
    land_ones h3, land_ones h4, land_ones h5, land_ones h6, land_ones h7]
  rw [lor_block _ _ (by omega) (by omega), lor_block _ _ (by omega) (by omega),
      lor_block _ _ (by omega) (by omega), lor_block _ _ (by omega) (by omega),
      lor_block _ _ (by omega) (by omega), lor_block _ _ (by omega) (by omega),
      lor_block _ _ (by omega) (by omega)]
  simp only [Nat.zero_or, Nat.or_zero]



/-- reverse64Byte is a byte-order reversal: on any value presented as
8 bytes it returns the bytes in the opposite order. -/
theorem reverse64Byte_bytes (b0 b1 b2 b3 b4 b5 b6 b7 : Nat)
    (h0 : b0 < 2 ^ 8) (h1 : b1 < 2 ^ 8) (h2 : b2 < 2 ^ 8) (h3 : b3 < 2 ^ 8)
    (h4 : b4 < 2 ^ 8) (h5 : b5 < 2 ^ 8) (h6 : b6 < 2 ^ 8) (h7 : b7 < 2 ^ 8) :
    reverse64Byte (2 ^ 56 * b7 + 2 ^ 48 * b6 + 2 ^ 40 * b5 + 2 ^ 32 * b4 + 2 ^ 24 * b3 +
        2 ^ 16 * b2 + 2 ^ 8 * b1 + b0) =
      2 ^ 56 * b0 + 2 ^ 48 * b1 + 2 ^ 40 * b2 + 2 ^ 32 * b3 + 2 ^ 24 * b4 +
        2 ^ 16 * b5 + 2 ^ 8 * b6 + b7 := by
  unfold reverse64Byte
  dsimp only
  rw [rev64_stage1 _ (2 ^ 8 * (2 ^ 8 * (2 ^ 8 * b3 + b2) + b1) + b0)
        (2 ^ 8 * (2 ^ 8 * (2 ^ 8 * b7 + b6) + b5) + b4)
        (by omega) (by omega) (by ring)]
  rw [rev64_stage2 _ (2 ^ 8 * b5 + b4) (2 ^ 8 * b7 + b6) (2 ^ 8 * b1 + b0) (2 ^ 8 * b3 + b2)
        (by omega) (by omega) (by omega) (by omega) (by ring)]
  rw [rev64_stage3 _ b6 b7 b4 b5 b2 b3 b0 b1 h6 h7 h4 h5 h2 h3 h0 h1 (by ring)]
  ring



theorem rev32_stage1 (v L H : Nat) (hL : L < 2 ^ 16) (hH : H < 2 ^ 16)
    (hv : v = 2 ^ 16 * H + L) :
    ((v <<< 16) % 2 ^ 32) ||| (v >>> 16) = 2 ^ 16 * L + H := by
  subst hv
  have h1 : (((2 ^ 16 * H + L) <<< 16)) % 2 ^ 32 = 2 ^ 16 * L := by
    rw [Nat.shiftLeft_eq]
    have he : (2 ^ 16 * H + L) * 2 ^ 16 = 2 ^ 32 * H + 2 ^ 16 * L := by ring
    rw [he]
    omega
  have h2 : (2 ^ 16 * H + L) >>> 16 = H := by
    rw [Nat.shiftRight_eq_div_pow]
    omega
  rw [h1, h2, ← Nat.mul_add_lt_is_or hH L]

theorem rev32_stage2 (v d0 d1 d2 d3 : Nat)
    (h0 : d0 < 2 ^ 8) (h1 : d1 < 2 ^ 8) (h2 : d2 < 2 ^ 8) (h3 : d3 < 2 ^ 8)
    (hv : v = 2 ^ 8 * (2 ^ 8 * (2 ^ 8 * d3 + d2) + d1) + d0) :
    (((v <<< 8) % 2 ^ 32) &&& 0xFF00FF00) ||| ((v >>> 8) &&& 0xFF00FF) =
      2 ^ 8 * (2 ^ 8 * (2 ^ 8 * d2 + d3) + d0) + d1 := by
  subst hv
  have hA : ((2 ^ 8 * (2 ^ 8 * (2 ^ 8 * d3 + d2) + d1) + d0) <<< 8) % 2 ^ 32 =
      2 ^ 8 * (2 ^ 8 * (2 ^ 8 * d2 + d1) + d0) + 0 := by
    rw [Nat.shiftLeft_eq]
    have he : (2 ^ 8 * (2 ^ 8 * (2 ^ 8 * d3 + d2) + d1) + d0) * 2 ^ 8 =
        2 ^ 32 * d3 + (2 ^ 24 * d2 + 2 ^ 16 * d1 + 2 ^ 8 * d0) := by ring
    have he2 : 2 ^ 8 * (2 ^ 8 * (2 ^ 8 * d2 + d1) + d0) + 0 =
        2 ^ 24 * d2 + 2 ^ 16 * d1 + 2 ^ 8 * d0 := by ring
    rw [he, he2]
    omega
  have hB : (2 ^ 8 * (2 ^ 8 * (2 ^ 8 * d3 + d2) + d1) + d0) >>> 8 =
      2 ^ 8 * (2 ^ 8 * (2 ^ 8 * 0 + d3) + d2) + d1 := by
    rw [Nat.shiftRight_eq_div_pow]
    have he : 2 ^ 8 * (2 ^ 8 * (2 ^ 8 * 0 + d3) + d2) + d1 =
        2 ^ 16 * d3 + 2 ^ 8 * d2 + d1 := by ring
    rw [he]
    omega
  have hM1 : (0xFF00FF00 : Nat) =
      2 ^ 8 * (2 ^ 8 * (2 ^ 8 * (2 ^ 8 - 1) + 0) + (2 ^ 8 - 1)) + 0 := by norm_num
  have hM2 : (0xFF00FF : Nat) =
      2 ^ 8 * (2 ^ 8 * (2 ^ 8 * 0 + (2 ^ 8 - 1)) + 0) + (2 ^ 8 - 1) := by norm_num
  rw [hA, hB, hM1, hM2]
  rw [land_block _ _ (by omega) (by omega), land_block _ _ (by omega) (by omega),
      land_block _ _ (by omega) (by omega)]
  rw [land_block _ _ (by omega) (by omega), land_block _ _ (by omega) (by omega),
      land_block _ _ (by omega) (by omega)]
  simp only [Nat.and_zero, Nat.zero_and, land_ones h0, land_ones h1, land_ones h2, land_ones h3]
  rw [lor_block _ _ (by omega) (by omega), lor_block _ _ (by omega) (by omega),
      lor_block _ _ (by omega) (by omega)]
  simp only [Nat.zero_or, Nat.or_zero]

/-- reverse32Byte is a byte-order reversal. -/
theorem reverse32Byte_bytes (b0 b1 b2 b3 : Nat)
    (h0 : b0 < 2 ^ 8) (h1 : b1 < 2 ^ 8) (h2 : b2 < 2 ^ 8) (h3 : b3 < 2 ^ 8) :
    reverse32Byte (2 ^ 24 * b3 + 2 ^ 16 * b2 + 2 ^ 8 * b1 + b0) =
      2 ^ 24 * b0 + 2 ^ 16 * b1 + 2 ^ 8 * b2 + b3 := by
  unfold reverse32Byte
  dsimp only
  rw [rev32_stage1 _ (2 ^ 8 * b1 + b0) (2 ^ 8 * b3 + b2) (by omega) (by omega) (by ring)]
  rw [rev32_stage2 _ b2 b3 b0 b1 h2 h3 h0 h1 (by ring)]
  ring

/-- reverse64Byte is an involution on 64-bit values. -/
theorem reverse64Byte_involutive (u : Nat) (hu : u < 2 ^ 64) :
    reverse64Byte (reverse64Byte u) = u := by
  have hb : ∀ k : Nat, u / 2 ^ k % 2 ^ 8 < 2 ^ 8 := fun k => Nat.mod_lt _ (by norm_num)
  have hu_eq : u = 2 ^ 56 * (u / 2 ^ 56 % 2 ^ 8) + 2 ^ 48 * (u / 2 ^ 48 % 2 ^ 8) +
      2 ^ 40 * (u / 2 ^ 40 % 2 ^ 8) + 2 ^ 32 * (u / 2 ^ 32 % 2 ^ 8) +
      2 ^ 24 * (u / 2 ^ 24 % 2 ^ 8) + 2 ^ 16 * (u / 2 ^ 16 % 2 ^ 8) +
      2 ^ 8 * (u / 2 ^ 8 % 2 ^ 8) + u / 2 ^ 0 % 2 ^ 8 := by omega
  rw [hu_eq, reverse64Byte_bytes _ _ _ _ _ _ _ _ (hb 0) (hb 8) (hb 16) (hb 24) (hb 32)
    (hb 40) (hb 48) (hb 56)]
  rw [reverse64Byte_bytes _ _ _ _ _ _ _ _ (hb 56) (hb 48) (hb 40) (hb 32) (hb 24)
    (hb 16) (hb 8) (hb 0)]

/-- reverse32Byte is an involution on 32-bit values. -/
theorem reverse32Byte_involutive (u : Nat) (hu : u < 2 ^ 32) :
    reverse32Byte (reverse32Byte u) = u := by
  have hb : ∀ k : Nat, u / 2 ^ k % 2 ^ 8 < 2 ^ 8 := fun k => Nat.mod_lt _ (by norm_num)
  have hu_eq : u = 2 ^ 24 * (u / 2 ^ 24 % 2 ^ 8) + 2 ^ 16 * (u / 2 ^ 16 % 2 ^ 8) +
      2 ^ 8 * (u / 2 ^ 8 % 2 ^ 8) + u / 2 ^ 0 % 2 ^ 8 := by omega
  rw [hu_eq, reverse32Byte_bytes _ _ _ _ (hb 0) (hb 8) (hb 16) (hb 24)]
  rw [reverse32Byte_bytes _ _ _ _ (hb 24) (hb 16) (hb 8) (hb 0)]

/-- C4: the floating-point wire transform fully reverses the byte order
of the in-memory bit pattern (reverse64Byte and reverse32Byte are
byte-order reversals and involutions), so decoding restores exactly the
original bit pattern for every float64 and float32 pattern. -/
theorem c4_float_transform :
    (∀ b0 b1 b2 b3 b4 b5 b6 b7 : Nat, b0 < 2 ^ 8 → b1 < 2 ^ 8 → b2 < 2 ^ 8 → b3 < 2 ^ 8 →
      b4 < 2 ^ 8 → b5 < 2 ^ 8 → b6 < 2 ^ 8 → b7 < 2 ^ 8 →
      reverse64Byte (2 ^ 56 * b7 + 2 ^ 48 * b6 + 2 ^ 40 * b5 + 2 ^ 32 * b4 + 2 ^ 24 * b3 +
          2 ^ 16 * b2 + 2 ^ 8 * b1 + b0) =
        2 ^ 56 * b0 + 2 ^ 48 * b1 + 2 ^ 40 * b2 + 2 ^ 32 * b3 + 2 ^ 24 * b4 +
          2 ^ 16 * b5 + 2 ^ 8 * b6 + b7) ∧
    (∀ b0 b1 b2 b3 : Nat, b0 < 2 ^ 8 → b1 < 2 ^ 8 → b2 < 2 ^ 8 → b3 < 2 ^ 8 →
      reverse32Byte (2 ^ 24 * b3 + 2 ^ 16 * b2 + 2 ^ 8 * b1 + b0) =
        2 ^ 24 * b0 + 2 ^ 16 * b1 + 2 ^ 8 * b2 + b3) ∧
    (∀ u, u < 2 ^ 64 → reverse64Byte (reverse64Byte u) = u) ∧
    (∀ u, u < 2 ^ 32 → reverse32Byte (reverse32Byte u) = u) ∧
    (∀ p, p < 2 ^ 64 → uint64ToFloat64 (float64ToUint64 p) = p) ∧
    (∀ p, p < 2 ^ 32 → uint32ToFloat32 (float32ToUint32 p) = p) :=
  ⟨fun b0 b1 b2 b3 b4 b5 b6 b7 h0 h1 h2 h3 h4 h5 h6 h7 =>
      reverse64Byte_bytes b0 b1 b2 b3 b4 b5 b6 b7 h0 h1 h2 h3 h4 h5 h6 h7,
   fun b0 b1 b2 b3 h0 h1 h2 h3 => reverse32Byte_bytes b0 b1 b2 b3 h0 h1 h2 h3,
   fun u hu => reverse64Byte_involutive u hu,
   fun u hu => reverse32Byte_involutive u hu,
   fun p hp => reverse64Byte_involutive p hp,
   fun p hp => reverse32Byte_involutive p hp⟩

/-- Witness for c4_float_transform at concrete inputs, including the
byte-reversal example documented in the sources. -/
theorem c4_float_transform_witness :
    reverse64Byte 0x0123456789ABCDEF = 0xEFCDAB8967452301 ∧
    uint64ToFloat64 (float64ToUint64 0x0123456789ABCDEF) = 0x0123456789ABCDEF ∧
    uint32ToFloat32 (float32ToUint32 0x12345678) = 0x12345678 :=
  ⟨by decide,
   c4_float_transform.2.2.2.2.1 0x0123456789ABCDEF (by norm_num),
   c4_float_transform.2.2.2.2.2 0x12345678 (by norm_num)⟩


end Gotiny

namespace Gotiny

/-- Character codes used by getName (byte-level model of the Go
strings): identifier characters are letters, digits and underscore. -/
def identChar (c : Nat) : Bool :=
  (65 ≤ c && c ≤ 90) || (97 ≤ c && c ≤ 122) || (48 ≤ c && c ≤ 57) || c == 95

/-- Package-path characters: identifier characters plus dot, slash,
dash and tilde, as found in Go import paths. -/
def pkgChar (c : Nat) : Bool := identChar c || c == 46 || c == 47 || c == 45 || c == 126

/-- The byte string "struct {". -/
def structStr : List Nat := [115, 116, 114, 117, 99, 116, 32, 123]
/-- The byte string "interface {". -/
def ifaceStr : List Nat := [105, 110, 116, 101, 114, 102, 97, 99, 101, 32, 123]
/-- The byte string "func". -/
def funcStr : List Nat := [102, 117, 110, 99]
/-- The byte string "map[". -/
def mapStr : List Nat := [109, 97, 112, 91]
/-- The byte string for a nil reflect.Type. -/
def nilStr : List Nat := [60, 110, 105, 108, 62]
mutual
/-- Structural model of reflect.Type as consumed by getName: a named
type carries only its package path and name (getName never looks at a
named type's structure); composite kinds carry their components; struct
fields are either anonymous (embedded) or named; interface methods
carry their func signature. invalid models a nil reflect.Type. -/
inductive GoType where
  | invalid
  | named (pkg nm : List Nat)
  | ptr (t : GoType)
  | array (n : Nat) (t : GoType)
  | slice (t : GoType)
  | map (k v : GoType)
  | struct (fs : FieldList)
  | iface (ms : MethodList)
  | func (ins outs : TypeList)
  deriving Repr, DecidableEq
/-- Struct fields: optional name (none means anonymous/embedded). -/
inductive FieldList where
  | nil
  | cons (nm : Option (List Nat)) (t : GoType) (tl : FieldList)
  deriving Repr, DecidableEq
/-- Interface methods: a name and the func signature. -/
inductive MethodList where
  | nil
  | cons (nm : List Nat) (ins outs : TypeList) (tl : MethodList)
  deriving Repr, DecidableEq
/-- Lists of types (func parameters and results). -/
inductive TypeList where
  | nil
  | cons (t : GoType) (tl : TypeList)
  deriving Repr, DecidableEq
end

/-- Decimal digit emission, least fuel-limited helper for strconv.Itoa. -/
def digitsAux : Nat → Nat → List Nat
  | 0, _ => []
  | fuel + 1, n => if n < 10 then [48 + n] else digitsAux fuel (n / 10) ++ [48 + n % 10]

/-- strconv.Itoa modelled on byte codes. -/
def itoa (n : Nat) : List Nat := digitsAux (n + 1) n

mutual
/-- getName from register.go, on byte strings. The source threads the
already-built output through a prefix parameter and appends to it;
here the appending is explicit, so the source's getName(prefix, rt) is
prefix ++ getName rt. Named types print as name or pkg.name; unnamed
composite types print as a textual reconstruction of their shape; a
nil/invalid type prints as the nil marker. -/
def getName : GoType → List Nat
  | .invalid => nilStr
  | .named pkg nm => if pkg = [] then nm else pkg ++ 46 :: nm
  | .ptr t => 42 :: getName t
  | .array n t => 91 :: (itoa n ++ 93 :: getName t)
  | .slice t => 91 :: 93 :: getName t
  | .map k v => mapStr ++ (getName k ++ 93 :: getName v)
  | .struct fs => structStr ++ (structBody fs ++ [125])
  | .iface ms => ifaceStr ++ (ifaceBody ms ++ [125])
  | .func ins outs => funcStr ++ funcTail ins outs
termination_by t => 2 * sizeOf t
decreasing_by
  all_goals simp_wf
  all_goals omega
/-- The space-separated field block of a struct name: empty for the
empty struct, otherwise a space and the field loop. -/
def structBody : FieldList → List Nat
  | .nil => []
  | .cons a b c => 32 :: getNameFields (.cons a b c)
termination_by fs => 2 * sizeOf fs + 1
decreasing_by
  all_goals simp_wf
/-- The space-separated method block of an interface name. -/
def ifaceBody : MethodList → List Nat
  | .nil => []
  | .cons a b c d => 32 :: getNameMethods (.cons a b c d)
termination_by ms => 2 * sizeOf ms + 1
decreasing_by
  all_goals simp_wf
/-- The part of a func type's name after "func"; interface methods are
printed as the method name followed by exactly this (the source slices
the func name with fn[4:]). -/
def funcTail : TypeList → TypeList → List Nat
  | ins, .nil => 40 :: (getNameTypes ins ++ [41])
  | ins, .cons o .nil => 40 :: (getNameTypes ins ++ 41 :: 32 :: getName o)
  | ins, .cons a (.cons b c) =>
    40 :: (getNameTypes ins ++ 41 :: 32 :: 40 ::
      (getNameTypes (.cons a (.cons b c)) ++ [41]))
termination_by ins outs => 2 * (sizeOf ins + sizeOf outs) + 1
decreasing_by
  all_goals simp_wf
  all_goals omega
/-- The field loop of getName's struct case: fields separated by "; ",
the last followed by a space (before the closing brace). -/
def getNameFields : FieldList → List Nat
  | .nil => []
  | .cons nm t .nil => fieldEmit nm t ++ [32]
  | .cons nm t (.cons a b c) => fieldEmit nm t ++ 59 :: 32 :: getNameFields (.cons a b c)
termination_by fs => 2 * sizeOf fs
decreasing_by
  all_goals simp_wf
  all_goals omega
/-- One field: an anonymous field prints its type only, a named field
prints the name, a space and the type. -/
def fieldEmit : Option (List Nat) → GoType → List Nat
  | none, t => getName t
  | some nm, t => nm ++ 32 :: getName t
termination_by _ t => 2 * sizeOf t + 1
decreasing_by
  all_goals simp_wf
/-- The method loop of getName's interface case. -/
def getNameMethods : MethodList → List Nat
  | .nil => []
  | .cons nm ins outs .nil => (nm ++ funcTail ins outs) ++ [32]
  | .cons nm ins outs (.cons a b c d) =>
    (nm ++ funcTail ins outs) ++ 59 :: 32 :: getNameMethods (.cons a b c d)
termination_by ms => 2 * sizeOf ms
decreasing_by
  all_goals simp_wf
  all_goals omega
/-- Comma-separated type lists (func parameters and results). -/
def getNameTypes : TypeList → List Nat
  | .nil => []
  | .cons t .nil => getName t
  | .cons t (.cons a b) => getName t ++ 44 :: 32 :: getNameTypes (.cons a b)
termination_by ts => 2 * sizeOf ts
decreasing_by
  all_goals simp_wf
  all_goals omega
end

/-- Well-formedness of one field name: anonymous, or a nonempty
identifier. -/
def wfFieldName : Option (List Nat) → Bool
  | none => true
  | some s => s ≠ [] && s.all identChar

mutual
/-- Well-formedness of the modelled types: member and type names are
nonempty identifier strings and package paths use package-path
characters. These invariants hold of every reflect.Type (Go names are
identifiers). -/
def wfType : GoType → Bool
  | .invalid => true
  | .named pkg nm => nm ≠ [] && nm.all identChar && pkg.all pkgChar
  | .ptr t => wfType t
  | .array _ t => wfType t
  | .slice t => wfType t
  | .map k v => wfType k && wfType v
  | .struct fs => wfFields fs
  | .iface ms => wfMethods ms
  | .func ins outs => wfTypes ins && wfTypes outs
def wfFields : FieldList → Bool
  | .nil => true
  | .cons nm t tl => wfFieldName nm && wfType t && wfFields tl
def wfMethods : MethodList → Bool
  | .nil => true
  | .cons nm ins outs tl =>
    nm ≠ [] && nm.all identChar && wfTypes ins && wfTypes outs && wfMethods tl
def wfTypes : TypeList → Bool
  | .nil => true
  | .cons t tl => wfType t && wfTypes tl
end

end Gotiny

namespace Gotiny

/-- Splitting an append at a maximal token: if two strings agree and
each is a class-P token followed by a non-P remainder, the tokens and
remainders agree. -/
theorem token_split (P : Nat → Bool) :
    ∀ (a1 a2 x1 x2 : List Nat),
      (∀ c ∈ a1, P c = true) → (∀ c ∈ a2, P c = true) →
      (∀ c, x1.head? = some c → P c = false) → (∀ c, x2.head? = some c → P c = false) →
      a1 ++ x1 = a2 ++ x2 → a1 = a2 ∧ x1 = x2 := by
  intro a1
  induction a1 with
  | nil =>
    intro a2 x1 x2 _ ha2 hx1 _ h
    cases a2 with
    | nil => exact ⟨rfl, h⟩
    | cons c a2 =>
      simp only [List.nil_append, List.cons_append] at h
      subst h
      have h1 := hx1 c rfl
      have h2 := ha2 c (by simp)
      rw [h1] at h2
      cases h2
  | cons c a1 ih =>
    intro a2 x1 x2 ha1 ha2 hx1 hx2 h
    cases a2 with
    | nil =>
      simp only [List.cons_append, List.nil_append] at h
      subst h
      have h1 := hx2 c rfl
      have h2 := ha1 c (by simp)
      rw [h1] at h2
      cases h2
    | cons c2 a2 =>
      simp only [List.cons_append, List.cons.injEq] at h
      obtain ⟨rfl, h⟩ := h
      obtain ⟨he, hr⟩ := ih a2 x1 x2 (fun d hd => ha1 d (by simp [hd]))
        (fun d hd => ha2 d (by simp [hd])) hx1 hx2 h
      exact ⟨by rw [he], hr⟩

/-- Digit character class. -/
def digitChar (c : Nat) : Bool := 48 ≤ c && c ≤ 57

theorem digitsAux_all_digits (fuel n : Nat) (h : n < 10 ^ fuel) :
    ∀ c ∈ digitsAux fuel n, digitChar c = true := by
  induction fuel generalizing n with
  | zero => simp [digitsAux]
  | succ fuel ih =>
    intro c hc
    rw [digitsAux] at hc
    split_ifs at hc with hn
    · simp only [List.mem_singleton] at hc
      subst hc
      simp [digitChar]
      omega
    · rw [List.mem_append] at hc
      rcases hc with hc | hc
      · have h10 : (10 : Nat) ^ (fuel + 1) = 10 * 10 ^ fuel := by ring
        exact ih (n / 10) (by omega) c hc
      · simp only [List.mem_singleton] at hc
        subst hc
        have : n % 10 < 10 := Nat.mod_lt _ (by norm_num)
        simp [digitChar]
        omega

theorem digitsAux_ne_nil (fuel n : Nat) (hf : 0 < fuel) : digitsAux fuel n ≠ [] := by
  cases fuel with
  | zero => omega
  | succ fuel =>
    rw [digitsAux]
    split_ifs
    · simp
    · simp

/-- Evaluating a digit string back to its value. -/
def digitsVal (l : List Nat) : Nat := l.foldl (fun acc d => 10 * acc + (d - 48)) 0

theorem digitsVal_append_digit (l : List Nat) (d : Nat) :
    digitsVal (l ++ [d]) = 10 * digitsVal l + (d - 48) := by
  simp [digitsVal, List.foldl_append]

theorem digitsVal_digitsAux (fuel n : Nat) (h : n < 10 ^ fuel) :
    digitsVal (digitsAux fuel n) = n := by
  induction fuel generalizing n with
  | zero =>
    have : n = 0 := by simpa using h
    subst this
    simp [digitsAux, digitsVal]
  | succ fuel ih =>
    rw [digitsAux]
    split_ifs with hn
    · simp only [digitsVal, List.foldl_cons, List.foldl_nil]
      omega
    · have h10 : (10 : Nat) ^ (fuel + 1) = 10 * 10 ^ fuel := by ring
      rw [digitsVal_append_digit, ih (n / 10) (by omega)]
      omega

theorem lt_ten_pow_succ (n : Nat) : n < 10 ^ (n + 1) :=
  lt_of_lt_of_le (Nat.lt_pow_self (by norm_num) n)
    (Nat.pow_le_pow_right (by norm_num) (by omega))

theorem itoa_inj (m n : Nat) (h : itoa m = itoa n) : m = n := by
  have hm := digitsVal_digitsAux (m + 1) m (lt_ten_pow_succ m)
  have hn := digitsVal_digitsAux (n + 1) n (lt_ten_pow_succ n)
  rw [itoa, itoa] at h
  rw [← hm, ← hn, h]

theorem itoa_all_digits (n : Nat) : ∀ c ∈ itoa n, digitChar c = true :=
  digitsAux_all_digits (n + 1) n (lt_ten_pow_succ n)

theorem itoa_ne_nil (n : Nat) : itoa n ≠ [] := digitsAux_ne_nil (n + 1) n (by omega)

end Gotiny

namespace Gotiny

/-- The characters that can legitimately follow an embedded type name:
nothing, a separator or closer, or the space before a closing brace. -/
def goodRest : List Nat → Bool
  | [] => true
  | c :: r' =>
    (c == 59) || (c == 93) || (c == 44) || (c == 41) ||
      ((c == 32) && (r'.head? == some 125))

theorem goodRest_head {r : List Nat} (h : goodRest r = true) :
    ∀ c, r.head? = some c →
      pkgChar c = false ∧ c ≠ 40 ∧ c ≠ 42 ∧ c ≠ 60 ∧ c ≠ 91 ∧ c ≠ 123 ∧ c ≠ 125 := by
  intro c hc
  cases r with
  | nil => simp at hc
  | cons c0 r' =>
    simp only [List.head?_cons, Option.some.injEq] at hc
    subst hc
    simp only [goodRest, Bool.or_eq_true, beq_iff_eq, Bool.and_eq_true] at h
    rcases h with (((rfl | rfl) | rfl) | rfl) | ⟨rfl, _⟩ <;> decide

/-- Characters a well-formed type name can start with. -/
def headOk (c : Nat) : Bool := pkgChar c || c == 42 || c == 91 || c == 60

theorem getName_head (t : GoType) (hwf : wfType t = true) :
    ∃ c rest, getName t = c :: rest ∧ headOk c = true := by
  cases t with
  | invalid => exact ⟨60, [110, 105, 108, 62], by simp [getName, nilStr], by decide⟩
  | named pkg nm =>
    simp only [wfType, Bool.and_eq_true, decide_eq_true_eq, List.all_eq_true] at hwf
    obtain ⟨⟨hne, hnm⟩, hpkg⟩ := hwf
    cases hp : pkg with
    | nil =>
      cases hn : nm with
      | nil => exact absurd hn hne
      | cons c rest =>
        refine ⟨c, rest, by simp [getName, hp, hn], ?_⟩
        have := hnm c (by rw [hn]; simp)
        simp [headOk, pkgChar, this]
    | cons c rest =>
      refine ⟨c, rest ++ 46 :: nm, by simp [getName, hp], ?_⟩
      have := hpkg c (by rw [hp]; simp)
      simp [headOk, this]
  | ptr t => exact ⟨42, getName t, by simp [getName], by decide⟩
  | array n t => exact ⟨91, itoa n ++ 93 :: getName t, by simp [getName], by decide⟩
  | slice t => exact ⟨91, 93 :: getName t, by simp [getName], by decide⟩
  | map k v => exact ⟨109, [97, 112, 91] ++ (getName k ++ 93 :: getName v),
      by simp [getName, mapStr], by decide⟩
  | struct fs =>
    have hx : ∃ X, getName (.struct fs) = 115 :: X := by
      cases fs <;> simp [getName, structStr, structBody]
    obtain ⟨X, hX⟩ := hx
    exact ⟨115, X, hX, by decide⟩
  | iface ms =>
    have hx : ∃ X, getName (.iface ms) = 105 :: X := by
      cases ms <;> simp [getName, ifaceStr, ifaceBody]
    obtain ⟨X, hX⟩ := hx
    exact ⟨105, X, hX, by decide⟩
  | func ins outs => exact ⟨102, [117, 110, 99] ++ funcTail ins outs,
      by simp [getName, funcStr], by decide⟩

theorem getName_not_head (t : GoType) (hwf : wfType t = true) (c : Nat)
    (hc : headOk c = false) (x r : List Nat) (h : getName t ++ r = c :: x) : False := by
  obtain ⟨c0, rest0, heq, hok⟩ := getName_head t hwf
  rw [heq] at h
  simp only [List.cons_append, List.cons.injEq] at h
  rw [h.1] at hok
  rw [hok] at hc
  cases hc

theorem fieldEmit_head (nm : Option (List Nat)) (t : GoType)
    (hwf : wfFieldName nm = true) (hwt : wfType t = true) :
    ∃ c rest, fieldEmit nm t = c :: rest ∧ headOk c = true := by
  cases nm with
  | none =>
    obtain ⟨c, rest, heq, hok⟩ := getName_head t hwt
    exact ⟨c, rest, by simp [fieldEmit, heq], hok⟩
  | some s =>
    simp only [wfFieldName, Bool.and_eq_true, decide_eq_true_eq, List.all_eq_true] at hwf
    obtain ⟨hne, hs⟩ := hwf
    cases hn : s with
    | nil => exact absurd hn hne
    | cons c rest =>
      refine ⟨c, rest ++ 32 :: getName t, by simp [fieldEmit, hn], ?_⟩
      have := hs c (by rw [hn]; simp)
      simp [headOk, pkgChar, this]

/-- All characters of a named type's printed name lie in the package
class. -/
theorem named_all_pkgChar (pkg nm : List Nat) (hnm : ∀ c ∈ nm, identChar c = true)
    (hpkg : ∀ c ∈ pkg, pkgChar c = true) :
    ∀ c ∈ getName (.named pkg nm), pkgChar c = true := by
  intro c hc
  rw [getName] at hc
  split_ifs at hc with hp
  · simp [pkgChar, hnm c hc]
  · rw [List.mem_append] at hc
    rcases hc with hc | hc
    · exact hpkg c hc
    · rcases List.mem_cons.mp hc with rfl | hc
      · decide
      · simp [pkgChar, hnm c hc]

end Gotiny

namespace Gotiny

theorem named_head (pkg nm : List Nat) (hwf : wfType (.named pkg nm) = true) :
    ∃ c rest, getName (.named pkg nm) = c :: rest ∧ pkgChar c = true := by
  simp only [wfType, Bool.and_eq_true, decide_eq_true_eq, List.all_eq_true] at hwf
  obtain ⟨⟨hne, hnm⟩, hpkg⟩ := hwf
  cases hp : pkg with
  | nil =>
    cases hn : nm with
    | nil => exact absurd hn hne
    | cons c rest =>
      refine ⟨c, rest, by simp [getName, hp, hn], ?_⟩
      have := hnm c (by rw [hn]; simp)
      simp [pkgChar, this]
  | cons c rest =>
    exact ⟨c, rest ++ 46 :: nm, by simp [getName, hp], hpkg c (by rw [hp]; simp)⟩

theorem named_clash (pkg nm : List Nat) (hwf : wfType (.named pkg nm) = true)
    (c : Nat) (hc : pkgChar c = false) (x r : List Nat)
    (h : getName (.named pkg nm) ++ r = c :: x) : False := by
  obtain ⟨c0, rest, heq, hpc⟩ := named_head pkg nm hwf
  rw [heq] at h
  simp only [List.cons_append, List.cons.injEq] at h
  rw [h.1] at hpc
  rw [hpc] at hc
  cases hc

/-- Splitting an equation whose left side is a named type's name
followed by a legitimate remainder against a token-plus-remainder
right side. -/
theorem named_token_eq (pkg nm : List Nat) (hwf : wfType (.named pkg nm) = true)
    (a2 x2 r1 : List Nat) (ha2 : ∀ c ∈ a2, pkgChar c = true)
    (hx2 : ∀ c, x2.head? = some c → pkgChar c = false)
    (hgr : goodRest r1 = true)
    (h : getName (.named pkg nm) ++ r1 = a2 ++ x2) :
    getName (.named pkg nm) = a2 ∧ r1 = x2 := by
  simp only [wfType, Bool.and_eq_true, decide_eq_true_eq, List.all_eq_true] at hwf
  obtain ⟨⟨hne, hnm⟩, hpkg⟩ := hwf
  exact token_split pkgChar _ a2 r1 x2 (named_all_pkgChar pkg nm hnm hpkg) ha2
    (fun c hc => (goodRest_head hgr c hc).1) hx2 h

theorem getName_ptr_eq (t : GoType) : getName (.ptr t) = 42 :: getName t := by
  simp [getName]

theorem getName_array_eq (n : Nat) (t : GoType) :
    getName (.array n t) = 91 :: (itoa n ++ 93 :: getName t) := by
  simp [getName]

theorem getName_slice_eq (t : GoType) : getName (.slice t) = 91 :: 93 :: getName t := by
  simp [getName]

theorem getName_map_eq (k v : GoType) :
    getName (.map k v) = 109 :: 97 :: 112 :: 91 :: (getName k ++ 93 :: getName v) := by
  simp [getName, mapStr]

theorem getName_struct_eq (fs : FieldList) :
    getName (.struct fs) =
      115 :: 116 :: 114 :: 117 :: 99 :: 116 :: 32 :: 123 :: (structBody fs ++ [125]) := by
  simp [getName, structStr]

theorem getName_iface_eq (ms : MethodList) :
    getName (.iface ms) =
      105 :: 110 :: 116 :: 101 :: 114 :: 102 :: 97 :: 99 :: 101 :: 32 :: 123 ::
        (ifaceBody ms ++ [125]) := by
  simp [getName, ifaceStr]

theorem getName_func_eq (ins outs : TypeList) :
    getName (.func ins outs) = 102 :: 117 :: 110 :: 99 :: funcTail ins outs := by
  simp [getName, funcStr]

theorem getName_invalid_eq : getName .invalid = 60 :: [110, 105, 108, 62] := by
  simp [getName, nilStr]

/-- Printed names of named types are injective: name and package path
are recovered by splitting at the last dot. -/
theorem named_emit_inj (pkg1 nm1 pkg2 nm2 : List Nat)
    (hwf1 : wfType (.named pkg1 nm1) = true) (hwf2 : wfType (.named pkg2 nm2) = true)
    (h : getName (.named pkg1 nm1) = getName (.named pkg2 nm2)) :
    pkg1 = pkg2 ∧ nm1 = nm2 := by
  simp only [wfType, Bool.and_eq_true, decide_eq_true_eq, List.all_eq_true] at hwf1 hwf2
  obtain ⟨⟨hne1, hnm1⟩, hpkg1⟩ := hwf1
  obtain ⟨⟨hne2, hnm2⟩, hpkg2⟩ := hwf2
  have hnodot1 : ∀ c ∈ nm1, c ≠ 46 := by
    intro c hc heq
    have := hnm1 c hc
    rw [heq] at this
    cases this
  have hnodot2 : ∀ c ∈ nm2, c ≠ 46 := by
    intro c hc heq
    have := hnm2 c hc
    rw [heq] at this
    cases this
  rw [getName, getName] at h
  split_ifs at h with h1 h2 h2
  · subst h1
    subst h2
    exact ⟨rfl, h⟩
  · exfalso
    have : (46 : Nat) ∈ nm1 := by
      rw [h]
      exact List.mem_append_right _ (by simp)
    exact hnodot1 46 this rfl
  · exfalso
    have : (46 : Nat) ∈ nm2 := by
      rw [← h]
      exact List.mem_append_right _ (by simp)
    exact hnodot2 46 this rfl
  · have h' := congrArg List.reverse h
    simp only [List.reverse_append, List.reverse_cons, List.append_assoc,
      List.singleton_append] at h'
    obtain ⟨ha, hb⟩ := token_split (fun c => !(c == 46)) nm1.reverse nm2.reverse
      (46 :: pkg1.reverse) (46 :: pkg2.reverse)
      (fun c hc => by
        have := hnodot1 c (List.mem_reverse.mp hc)
        simp [this])
      (fun c hc => by
        have := hnodot2 c (List.mem_reverse.mp hc)
        simp [this])
      (by intro c hc; simp only [List.head?_cons, Option.some.injEq] at hc; subst hc; simp)
      (by intro c hc; simp only [List.head?_cons, Option.some.injEq] at hc; subst hc; simp)
      h'
    simp only [List.cons.injEq] at hb
    exact ⟨List.reverse_injective hb.2, List.reverse_injective ha⟩

end Gotiny

namespace Gotiny

theorem cons_clash {c1 c2 : Nat} {x1 x2 : List Nat} (hne : c1 ≠ c2)
    (h : c1 :: x1 = c2 :: x2) : False := by
  simp only [List.cons.injEq] at h
  exact hne h.1

theorem goodRest_space {x : List Nat} (h : goodRest (32 :: x) = true) :
    ∃ x', x = 125 :: x' := by
  simp only [goodRest, Bool.or_eq_true, beq_iff_eq, Bool.and_eq_true] at h
  rcases h with (((h | h) | h) | h) | ⟨-, h⟩ <;> first
    | omega
    | (cases x with
       | nil => simp at h
       | cons c x' =>
         simp only [List.head?_cons, beq_iff_eq, Option.some.injEq] at h
         exact ⟨x', by rw [h]⟩)

theorem funcTail_head (ins outs : TypeList) : ∃ X, funcTail ins outs = 40 :: X := by
  cases outs with
  | nil => exact ⟨getNameTypes ins ++ [41], by simp [funcTail]⟩
  | cons o tl =>
    cases tl with
    | nil => exact ⟨getNameTypes ins ++ 41 :: 32 :: getName o, by simp [funcTail]⟩
    | cons b c =>
      exact ⟨getNameTypes ins ++ 41 :: 32 :: 40 ::
        (getNameTypes (.cons o (.cons b c)) ++ [41]), by simp [funcTail]⟩

/-- An anonymous field (printing its type) can never collide with a
named field (printing name, space, type). -/
theorem anon_named_clash (t1 : GoType) (s2 : List Nat) (t2 : GoType) (r1 r2 : List Nat)
    (hw1 : wfType t1 = true) (hs2 : wfFieldName (some s2) = true) (hw2 : wfType t2 = true)
    (hg1 : goodRest r1 = true)
    (h : getName t1 ++ r1 = s2 ++ 32 :: (getName t2 ++ r2)) : False := by
  have hs2' := hs2
  simp only [wfFieldName, Bool.and_eq_true, decide_eq_true_eq, List.all_eq_true] at hs2'
  obtain ⟨hne2, hid2⟩ := hs2'
  have hs2pkg : ∀ c ∈ s2, pkgChar c = true := by
    intro c hc
    simp [pkgChar, hid2 c hc]
  have hx2head : ∀ c, (32 :: (getName t2 ++ r2)).head? = some c → pkgChar c = false := by
    intro c hc
    simp only [List.head?_cons, Option.some.injEq] at hc
    subst hc
    decide
  cases hs : s2 with
  | nil => exact hne2 hs
  | cons d s2' =>
    have hd : identChar d = true := hid2 d (by rw [hs]; simp)
    cases t1 with
    | invalid =>
      rw [getName_invalid_eq, hs] at h
      simp only [List.cons_append] at h
      have := h
      simp only [List.cons.injEq] at this
      rw [← this.1] at hd
      cases hd
    | ptr t =>
      rw [getName_ptr_eq, hs] at h
      simp only [List.cons_append] at h
      simp only [List.cons.injEq] at h
      rw [← h.1] at hd
      cases hd
    | array n t =>
      rw [getName_array_eq, hs] at h
      simp only [List.cons_append] at h
      simp only [List.cons.injEq] at h
      rw [← h.1] at hd
      cases hd
    | slice t =>
      rw [getName_slice_eq, hs] at h
      simp only [List.cons_append] at h
      simp only [List.cons.injEq] at h
      rw [← h.1] at hd
      cases hd
    | named pkg nm =>
      obtain ⟨-, hx⟩ := named_token_eq pkg nm hw1 s2 (32 :: (getName t2 ++ r2)) r1
        hs2pkg hx2head hg1 h
      rw [hx] at hg1
      obtain ⟨x', hx'⟩ := goodRest_space hg1
      exact getName_not_head t2 hw2 125 (by decide) _ _ hx'
    | map k v =>
      rw [getName_map_eq] at h
      obtain ⟨-, hx⟩ := token_split pkgChar [109, 97, 112] s2
        (91 :: (getName k ++ 93 :: getName v ++ r1)) (32 :: (getName t2 ++ r2))
        (by decide) hs2pkg
        (by intro c hc; simp only [List.head?_cons, Option.some.injEq] at hc; subst hc; decide)
        hx2head (by simpa [List.append_assoc] using h)
      exact cons_clash (by decide) hx
    | struct fs =>
      rw [getName_struct_eq] at h
      obtain ⟨-, hx⟩ := token_split pkgChar [115, 116, 114, 117, 99, 116] s2
        (32 :: 123 :: (structBody fs ++ 125 :: r1)) (32 :: (getName t2 ++ r2))
        (by decide) hs2pkg
        (by intro c hc; simp only [List.head?_cons, Option.some.injEq] at hc; subst hc; decide)
        hx2head (by simpa [List.append_assoc] using h)
      simp only [List.cons.injEq] at hx
      exact getName_not_head t2 hw2 123 (by decide) _ _ hx.2.symm
    | iface ms =>
      rw [getName_iface_eq] at h
      obtain ⟨-, hx⟩ := token_split pkgChar [105, 110, 116, 101, 114, 102, 97, 99, 101] s2
        (32 :: 123 :: (ifaceBody ms ++ 125 :: r1)) (32 :: (getName t2 ++ r2))
        (by decide) hs2pkg
        (by intro c hc; simp only [List.head?_cons, Option.some.injEq] at hc; subst hc; decide)
        hx2head (by simpa [List.append_assoc] using h)
      simp only [List.cons.injEq] at hx
      exact getName_not_head t2 hw2 123 (by decide) _ _ hx.2.symm
    | func ins outs =>
      obtain ⟨X, hX⟩ := funcTail_head ins outs
      rw [getName_func_eq, hX] at h
      obtain ⟨-, hx⟩ := token_split pkgChar [102, 117, 110, 99] s2
        (40 :: (X ++ r1)) (32 :: (getName t2 ++ r2))
        (by decide) hs2pkg
        (by intro c hc; simp only [List.head?_cons, Option.some.injEq] at hc; subst hc; decide)
        hx2head (by simpa [List.append_assoc] using h)
      exact cons_clash (by decide) hx

end Gotiny

namespace Gotiny

theorem wfTypes_cons {t : GoType} {tl : TypeList} (h : wfTypes (.cons t tl) = true) :
    wfType t = true ∧ wfTypes tl = true := by
  simp only [wfTypes, Bool.and_eq_true] at h
  exact h

theorem wfFields_cons {nm : Option (List Nat)} {t : GoType} {tl : FieldList}
    (h : wfFields (.cons nm t tl) = true) :
    wfFieldName nm = true ∧ wfType t = true ∧ wfFields tl = true := by
  simp only [wfFields, Bool.and_eq_true] at h
  exact ⟨h.1.1, h.1.2, h.2⟩

theorem wfMethods_cons {nm : List Nat} {ins outs : TypeList} {tl : MethodList}
    (h : wfMethods (.cons nm ins outs tl) = true) :
    nm ≠ [] ∧ (∀ c ∈ nm, identChar c = true) ∧ wfTypes ins = true ∧
      wfTypes outs = true ∧ wfMethods tl = true := by
  simp only [wfMethods, Bool.and_eq_true, decide_eq_true_eq, List.all_eq_true] at h
  exact ⟨h.1.1.1.1, h.1.1.1.2, h.1.1.2, h.1.2, h.2⟩

theorem wfType_ptr {t : GoType} (h : wfType (.ptr t) = true) : wfType t = true := by
  simp only [wfType] at h
  exact h

theorem wfType_array {n : Nat} {t : GoType} (h : wfType (.array n t) = true) :
    wfType t = true := by
  simp only [wfType] at h
  exact h

theorem wfType_slice {t : GoType} (h : wfType (.slice t) = true) : wfType t = true := by
  simp only [wfType] at h
  exact h

theorem wfType_map {k v : GoType} (h : wfType (.map k v) = true) :
    wfType k = true ∧ wfType v = true := by
  simp only [wfType, Bool.and_eq_true] at h
  exact h

theorem wfType_struct {fs : FieldList} (h : wfType (.struct fs) = true) :
    wfFields fs = true := by
  simp only [wfType] at h
  exact h

theorem wfType_iface {ms : MethodList} (h : wfType (.iface ms) = true) :
    wfMethods ms = true := by
  simp only [wfType] at h
  exact h

theorem wfType_func {i o : TypeList} (h : wfType (.func i o) = true) :
    wfTypes i = true ∧ wfTypes o = true := by
  simp only [wfType, Bool.and_eq_true] at h
  exact h

end Gotiny

namespace Gotiny

set_option maxHeartbeats 1600000

mutual

/-- Printed type names followed by legitimate separators determine the
type and the remainder uniquely. -/
theorem inj_type (t1 t2 : GoType) (r1 r2 : List Nat)
    (hw1 : wfType t1 = true) (hw2 : wfType t2 = true)
    (hg1 : goodRest r1 = true) (hg2 : goodRest r2 = true)
    (h : getName t1 ++ r1 = getName t2 ++ r2) : t1 = t2 ∧ r1 = r2 := by
  cases t1 with
  | invalid =>
    cases t2 with
    | invalid =>
      rw [getName_invalid_eq] at h
      simp only [List.cons_append, List.nil_append] at h
      injection h with hh h
      injection h with hh h
      injection h with hh h
      injection h with hh h
      injection h with hh h
      exact ⟨rfl, h⟩
    | named pkg2 nm2 =>
      exfalso
      rw [getName_invalid_eq] at h
      simp only [List.cons_append, List.nil_append] at h
      exact named_clash pkg2 nm2 hw2 60 (by decide) _ _ h.symm
    | ptr s2 =>
      exfalso
      rw [getName_invalid_eq, getName_ptr_eq] at h
      simp only [List.cons_append, List.nil_append] at h
      exact cons_clash (by decide) h
    | array n2 s2 =>
      exfalso
      rw [getName_invalid_eq, getName_array_eq] at h
      simp only [List.cons_append, List.nil_append] at h
      exact cons_clash (by decide) h
    | slice s2 =>
      exfalso
      rw [getName_invalid_eq, getName_slice_eq] at h
      simp only [List.cons_append, List.nil_append] at h
      exact cons_clash (by decide) h
    | map k2 v2 =>
      exfalso
      rw [getName_invalid_eq, getName_map_eq] at h
      simp only [List.cons_append, List.nil_append] at h
      exact cons_clash (by decide) h
    | struct fs2 =>
      exfalso
      rw [getName_invalid_eq, getName_struct_eq] at h
      simp only [List.cons_append, List.nil_append] at h
      exact cons_clash (by decide) h
    | iface ms2 =>
      exfalso
      rw [getName_invalid_eq, getName_iface_eq] at h
      simp only [List.cons_append, List.nil_append] at h
      exact cons_clash (by decide) h
    | func i2 o2 =>
      exfalso
      rw [getName_invalid_eq, getName_func_eq] at h
      simp only [List.cons_append, List.nil_append] at h
      exact cons_clash (by decide) h
  | named pkg1 nm1 =>
    cases t2 with
    | invalid =>
      exfalso
      rw [getName_invalid_eq] at h
      simp only [List.cons_append, List.nil_append] at h
      exact named_clash pkg1 nm1 hw1 60 (by decide) _ _ h
    | named pkg2 nm2 =>
      obtain ⟨hemit, hr⟩ := named_token_eq pkg1 nm1 hw1 (getName (.named pkg2 nm2)) r2 r1
        (by
          have hw2' := hw2
          simp only [wfType, Bool.and_eq_true, decide_eq_true_eq, List.all_eq_true] at hw2'
          exact named_all_pkgChar pkg2 nm2 hw2'.1.2 hw2'.2)
        (fun c hc => (goodRest_head hg2 c hc).1) hg1 h
      obtain ⟨hp, hn⟩ := named_emit_inj pkg1 nm1 pkg2 nm2 hw1 hw2 hemit
      exact ⟨by rw [hp, hn], hr⟩
    | ptr s2 =>
      exfalso
      rw [getName_ptr_eq] at h
      simp only [List.cons_append] at h
      exact named_clash pkg1 nm1 hw1 42 (by decide) _ _ h
    | array n2 s2 =>
      exfalso
      rw [getName_array_eq] at h
      simp only [List.cons_append] at h
      exact named_clash pkg1 nm1 hw1 91 (by decide) _ _ h
    | slice s2 =>
      exfalso
      rw [getName_slice_eq] at h
      simp only [List.cons_append] at h
      exact named_clash pkg1 nm1 hw1 91 (by decide) _ _ h
    | map k2 v2 =>
      exfalso
      have h' : getName (.named pkg1 nm1) ++ r1 =
          [109, 97, 112] ++ (91 :: (getName k2 ++ 93 :: (getName v2 ++ r2))) := by
        rw [getName_map_eq] at h
        simpa [List.cons_append, List.append_assoc] using h
      obtain ⟨-, hx⟩ := named_token_eq pkg1 nm1 hw1 [109, 97, 112]
        (91 :: (getName k2 ++ 93 :: (getName v2 ++ r2))) r1 (by decide)
        (by intro c hc; simp only [List.head?_cons, Option.some.injEq] at hc; subst hc; decide)
        hg1 h'
      exact (goodRest_head hg1 91 (by rw [hx]; rfl)).2.2.2.2.1 rfl
    | struct fs2 =>
      exfalso
      have h' : getName (.named pkg1 nm1) ++ r1 =
          [115, 116, 114, 117, 99, 116] ++ (32 :: 123 :: (structBody fs2 ++ 125 :: r2)) := by
        rw [getName_struct_eq] at h
        simpa [List.cons_append, List.append_assoc] using h
      obtain ⟨-, hx⟩ := named_token_eq pkg1 nm1 hw1 [115, 116, 114, 117, 99, 116]
        (32 :: 123 :: (structBody fs2 ++ 125 :: r2)) r1 (by decide)
        (by intro c hc; simp only [List.head?_cons, Option.some.injEq] at hc; subst hc; decide)
        hg1 h'
      rw [hx] at hg1
      obtain ⟨x', hx'⟩ := goodRest_space hg1
      exact cons_clash (by decide) hx'
    | iface ms2 =>
      exfalso
      have h' : getName (.named pkg1 nm1) ++ r1 =
          [105, 110, 116, 101, 114, 102, 97, 99, 101] ++
            (32 :: 123 :: (ifaceBody ms2 ++ 125 :: r2)) := by
        rw [getName_iface_eq] at h
        simpa [List.cons_append, List.append_assoc] using h
      obtain ⟨-, hx⟩ := named_token_eq pkg1 nm1 hw1
        [105, 110, 116, 101, 114, 102, 97, 99, 101]
        (32 :: 123 :: (ifaceBody ms2 ++ 125 :: r2)) r1 (by decide)
        (by intro c hc; simp only [List.head?_cons, Option.some.injEq] at hc; subst hc; decide)
        hg1 h'
      rw [hx] at hg1
      obtain ⟨x', hx'⟩ := goodRest_space hg1
      exact cons_clash (by decide) hx'
    | func i2 o2 =>
      exfalso
      obtain ⟨X, hX⟩ := funcTail_head i2 o2
      have h' : getName (.named pkg1 nm1) ++ r1 =
          [102, 117, 110, 99] ++ (40 :: (X ++ r2)) := by
        rw [getName_func_eq, hX] at h
        simpa [List.cons_append, List.append_assoc] using h
      obtain ⟨-, hx⟩ := named_token_eq pkg1 nm1 hw1 [102, 117, 110, 99] (40 :: (X ++ r2)) r1
        (by decide)
        (by intro c hc; simp only [List.head?_cons, Option.some.injEq] at hc; subst hc; decide)
        hg1 h'
      exact (goodRest_head hg1 40 (by rw [hx]; rfl)).2.1 rfl
  | ptr s1 =>
    cases t2 with
    | invalid =>
      exfalso
      rw [getName_ptr_eq, getName_invalid_eq] at h
      simp only [List.cons_append, List.nil_append] at h
      exact cons_clash (by decide) h
    | named pkg2 nm2 =>
      exfalso
      rw [getName_ptr_eq] at h
      simp only [List.cons_append] at h
      exact named_clash pkg2 nm2 hw2 42 (by decide) _ _ h.symm
    | ptr s2 =>
      simp only [getName_ptr_eq, List.cons_append] at h
      injection h with hh h
      obtain ⟨ht, hr⟩ := inj_type s1 s2 r1 r2 (wfType_ptr hw1) (wfType_ptr hw2) hg1 hg2 h
      exact ⟨by rw [ht], hr⟩
    | array n2 s2 =>
      exfalso
      rw [getName_ptr_eq, getName_array_eq] at h
      simp only [List.cons_append] at h
      exact cons_clash (by decide) h
    | slice s2 =>
      exfalso
      rw [getName_ptr_eq, getName_slice_eq] at h
      simp only [List.cons_append] at h
      exact cons_clash (by decide) h
    | map k2 v2 =>
      exfalso
      rw [getName_ptr_eq, getName_map_eq] at h
      simp only [List.cons_append] at h
      exact cons_clash (by decide) h
    | struct fs2 =>
      exfalso
      rw [getName_ptr_eq, getName_struct_eq] at h
      simp only [List.cons_append] at h
      exact cons_clash (by decide) h
    | iface ms2 =>
      exfalso
      rw [getName_ptr_eq, getName_iface_eq] at h
      simp only [List.cons_append] at h
      exact cons_clash (by decide) h
    | func i2 o2 =>
      exfalso
      rw [getName_ptr_eq, getName_func_eq] at h
      simp only [List.cons_append] at h
      exact cons_clash (by decide) h
  | array n1 s1 =>
    cases t2 with
    | invalid =>
      exfalso
      rw [getName_array_eq, getName_invalid_eq] at h
      simp only [List.cons_append, List.nil_append] at h
      exact cons_clash (by decide) h
    | named pkg2 nm2 =>
      exfalso
      rw [getName_array_eq] at h
      simp only [List.cons_append] at h
      exact named_clash pkg2 nm2 hw2 91 (by decide) _ _ h.symm
    | ptr s2 =>
      exfalso
      rw [getName_array_eq, getName_ptr_eq] at h
      simp only [List.cons_append] at h
      exact cons_clash (by decide) h
    | array n2 s2 =>
      simp only [getName_array_eq, List.cons_append, List.append_assoc] at h
      injection h with hh h
      obtain ⟨hia, hx⟩ := token_split digitChar (itoa n1) (itoa n2)
        (93 :: (getName s1 ++ r1)) (93 :: (getName s2 ++ r2))
        (itoa_all_digits n1) (itoa_all_digits n2)
        (by intro c hc; simp only [List.head?_cons, Option.some.injEq] at hc; subst hc; decide)
        (by intro c hc; simp only [List.head?_cons, Option.some.injEq] at hc; subst hc; decide)
        h
      injection hx with hh hx
      obtain ⟨ht, hr⟩ := inj_type s1 s2 r1 r2 (wfType_array hw1) (wfType_array hw2) hg1 hg2 hx
      exact ⟨by rw [itoa_inj n1 n2 hia, ht], hr⟩
    | slice s2 =>
      exfalso
      simp only [getName_array_eq, getName_slice_eq, List.cons_append, List.append_assoc] at h
      injection h with hh h
      cases hi : itoa n1 with
      | nil => exact itoa_ne_nil n1 hi
      | cons d ds =>
        have hd := itoa_all_digits n1 d (by rw [hi]; simp)
        rw [hi] at h
        simp only [List.cons_append] at h
        injection h with h1 hh
        rw [h1] at hd
        exact absurd hd (by decide)
    | map k2 v2 =>
      exfalso
      rw [getName_array_eq, getName_map_eq] at h
      simp only [List.cons_append] at h
      exact cons_clash (by decide) h
    | struct fs2 =>
      exfalso
      rw [getName_array_eq, getName_struct_eq] at h
      simp only [List.cons_append] at h
      exact cons_clash (by decide) h
    | iface ms2 =>
      exfalso
      rw [getName_array_eq, getName_iface_eq] at h
      simp only [List.cons_append] at h
      exact cons_clash (by decide) h
    | func i2 o2 =>
      exfalso
      rw [getName_array_eq, getName_func_eq] at h
      simp only [List.cons_append] at h
      exact cons_clash (by decide) h
  | slice s1 =>
    cases t2 with
    | invalid =>
      exfalso
      rw [getName_slice_eq, getName_invalid_eq] at h
      simp only [List.cons_append, List.nil_append] at h
      exact cons_clash (by decide) h
    | named pkg2 nm2 =>
      exfalso
      rw [getName_slice_eq] at h
      simp only [List.cons_append] at h
      exact named_clash pkg2 nm2 hw2 91 (by decide) _ _ h.symm
    | ptr s2 =>
      exfalso
      rw [getName_slice_eq, getName_ptr_eq] at h
      simp only [List.cons_append] at h
      exact cons_clash (by decide) h
    | array n2 s2 =>
      exfalso
      simp only [getName_slice_eq, getName_array_eq, List.cons_append, List.append_assoc] at h
      injection h with hh h
      cases hi : itoa n2 with
      | nil => exact itoa_ne_nil n2 hi
      | cons d ds =>
        have hd := itoa_all_digits n2 d (by rw [hi]; simp)
        rw [hi] at h
        simp only [List.cons_append] at h
        injection h with h1 hh
        rw [← h1] at hd
        exact absurd hd (by decide)
    | slice s2 =>
      simp only [getName_slice_eq, List.cons_append] at h
      injection h with hh h
      injection h with hh h
      obtain ⟨ht, hr⟩ := inj_type s1 s2 r1 r2 (wfType_slice hw1) (wfType_slice hw2) hg1 hg2 h
      exact ⟨by rw [ht], hr⟩
    | map k2 v2 =>
      exfalso
      rw [getName_slice_eq, getName_map_eq] at h
      simp only [List.cons_append] at h
      exact cons_clash (by decide) h
    | struct fs2 =>
      exfalso
      rw [getName_slice_eq, getName_struct_eq] at h
      simp only [List.cons_append] at h
      exact cons_clash (by decide) h
    | iface ms2 =>
      exfalso
      rw [getName_slice_eq, getName_iface_eq] at h
      simp only [List.cons_append] at h
      exact cons_clash (by decide) h
    | func i2 o2 =>
      exfalso
      rw [getName_slice_eq, getName_func_eq] at h
      simp only [List.cons_append] at h
      exact cons_clash (by decide) h
  | map k1 v1 =>
    cases t2 with
    | invalid =>
      exfalso
      rw [getName_map_eq, getName_invalid_eq] at h
      simp only [List.cons_append, List.nil_append] at h
      exact cons_clash (by decide) h
    | named pkg2 nm2 =>
      exfalso
      obtain ⟨X, hX⟩ := funcTail_head TypeList.nil TypeList.nil
      have h' : getName (.named pkg2 nm2) ++ r2 =
          [109, 97, 112] ++ (91 :: (getName k1 ++ 93 :: (getName v1 ++ r1))) := by
        rw [getName_map_eq] at h
        simpa [List.cons_append, List.append_assoc] using h.symm
      obtain ⟨-, hx⟩ := named_token_eq pkg2 nm2 hw2 [109, 97, 112]
        (91 :: (getName k1 ++ 93 :: (getName v1 ++ r1))) r2 (by decide)
        (by intro c hc; simp only [List.head?_cons, Option.some.injEq] at hc; subst hc; decide)
        hg2 h'
      exact (goodRest_head hg2 91 (by rw [hx]; rfl)).2.2.2.2.1 rfl
    | ptr s2 =>
      exfalso
      rw [getName_map_eq, getName_ptr_eq] at h
      simp only [List.cons_append] at h
      exact cons_clash (by decide) h
    | array n2 s2 =>
      exfalso
      rw [getName_map_eq, getName_array_eq] at h
      simp only [List.cons_append] at h
      exact cons_clash (by decide) h
    | slice s2 =>
      exfalso
      rw [getName_map_eq, getName_slice_eq] at h
      simp only [List.cons_append] at h
      exact cons_clash (by decide) h
    | map k2 v2 =>
      simp only [getName_map_eq, List.cons_append, List.append_assoc] at h
      injection h with hh h
      injection h with hh h
      injection h with hh h
      injection h with hh h
      obtain ⟨hk, hx⟩ := inj_type k1 k2 (93 :: (getName v1 ++ r1)) (93 :: (getName v2 ++ r2))
        (wfType_map hw1).1 (wfType_map hw2).1 (by simp [goodRest]) (by simp [goodRest]) h
      injection hx with hh hx
      obtain ⟨hv, hr⟩ := inj_type v1 v2 r1 r2 (wfType_map hw1).2 (wfType_map hw2).2 hg1 hg2 hx
      exact ⟨by rw [hk, hv], hr⟩
    | struct fs2 =>
      exfalso
      rw [getName_map_eq, getName_struct_eq] at h
      simp only [List.cons_append] at h
      exact cons_clash (by decide) h
    | iface ms2 =>
      exfalso
      rw [getName_map_eq, getName_iface_eq] at h
      simp only [List.cons_append] at h
      exact cons_clash (by decide) h
    | func i2 o2 =>
      exfalso
      rw [getName_map_eq, getName_func_eq] at h
      simp only [List.cons_append] at h
      exact cons_clash (by decide) h
  | struct fs1 =>
    cases t2 with
    | invalid =>
      exfalso
      rw [getName_struct_eq, getName_invalid_eq] at h
      simp only [List.cons_append, List.nil_append] at h
      exact cons_clash (by decide) h
    | named pkg2 nm2 =>
      exfalso
      have h' : getName (.named pkg2 nm2) ++ r2 =
          [115, 116, 114, 117, 99, 116] ++ (32 :: 123 :: (structBody fs1 ++ 125 :: r1)) := by
        rw [getName_struct_eq] at h
        simpa [List.cons_append, List.append_assoc] using h.symm
      obtain ⟨-, hx⟩ := named_token_eq pkg2 nm2 hw2 [115, 116, 114, 117, 99, 116]
        (32 :: 123 :: (structBody fs1 ++ 125 :: r1)) r2 (by decide)
        (by intro c hc; simp only [List.head?_cons, Option.some.injEq] at hc; subst hc; decide)
        hg2 h'
      rw [hx] at hg2
      obtain ⟨x', hx'⟩ := goodRest_space hg2
      exact cons_clash (by decide) hx'
    | ptr s2 =>
      exfalso
      rw [getName_struct_eq, getName_ptr_eq] at h
      simp only [List.cons_append] at h
      exact cons_clash (by decide) h
    | array n2 s2 =>
      exfalso
      rw [getName_struct_eq, getName_array_eq] at h
      simp only [List.cons_append] at h
      exact cons_clash (by decide) h
    | slice s2 =>
      exfalso
      rw [getName_struct_eq, getName_slice_eq] at h
      simp only [List.cons_append] at h
      exact cons_clash (by decide) h
    | map k2 v2 =>
      exfalso
      rw [getName_struct_eq, getName_map_eq] at h
      simp only [List.cons_append] at h
      exact cons_clash (by decide) h
    | struct fs2 =>
      simp only [getName_struct_eq, List.cons_append, List.append_assoc,
        List.singleton_append] at h
      injection h with hh h
      injection h with hh h
      injection h with hh h
      injection h with hh h
      injection h with hh h
      injection h with hh h
      injection h with hh h
      injection h with hh h
      cases fs1 with
      | nil =>
        cases fs2 with
        | nil =>
          simp only [structBody, List.nil_append] at h
          injection h with hh h
          exact ⟨rfl, h⟩
        | cons fn2 ft2 ftl2 =>
          exfalso
          simp only [structBody, List.nil_append, List.cons_append] at h
          exact cons_clash (by decide) h
      | cons fn1 ft1 ftl1 =>
        cases fs2 with
        | nil =>
          exfalso
          simp only [structBody, List.nil_append, List.cons_append] at h
          exact cons_clash (by decide) h
        | cons fn2 ft2 ftl2 =>
          simp only [structBody, List.cons_append] at h
          injection h with hh h
          obtain ⟨hfs, hr⟩ := inj_fields (.cons fn1 ft1 ftl1) (.cons fn2 ft2 ftl2) r1 r2
            (wfType_struct hw1) (wfType_struct hw2) h
          exact ⟨by rw [hfs], hr⟩
    | iface ms2 =>
      exfalso
      rw [getName_struct_eq, getName_iface_eq] at h
      simp only [List.cons_append] at h
      exact cons_clash (by decide) h
    | func i2 o2 =>
      exfalso
      rw [getName_struct_eq, getName_func_eq] at h
      simp only [List.cons_append] at h
      exact cons_clash (by decide) h
  | iface ms1 =>
    cases t2 with
    | invalid =>
      exfalso
      rw [getName_iface_eq, getName_invalid_eq] at h
      simp only [List.cons_append, List.nil_append] at h
      exact cons_clash (by decide) h
    | named pkg2 nm2 =>
      exfalso
      have h' : getName (.named pkg2 nm2) ++ r2 =
          [105, 110, 116, 101, 114, 102, 97, 99, 101] ++
            (32 :: 123 :: (ifaceBody ms1 ++ 125 :: r1)) := by
        rw [getName_iface_eq] at h
        simpa [List.cons_append, List.append_assoc] using h.symm
      obtain ⟨-, hx⟩ := named_token_eq pkg2 nm2 hw2
        [105, 110, 116, 101, 114, 102, 97, 99, 101]
        (32 :: 123 :: (ifaceBody ms1 ++ 125 :: r1)) r2 (by decide)
        (by intro c hc; simp only [List.head?_cons, Option.some.injEq] at hc; subst hc; decide)
        hg2 h'
      rw [hx] at hg2
      obtain ⟨x', hx'⟩ := goodRest_space hg2
      exact cons_clash (by decide) hx'
    | ptr s2 =>
      exfalso
      rw [getName_iface_eq, getName_ptr_eq] at h
      simp only [List.cons_append] at h
      exact cons_clash (by decide) h
    | array n2 s2 =>
      exfalso
      rw [getName_iface_eq, getName_array_eq] at h
      simp only [List.cons_append] at h
      exact cons_clash (by decide) h
    | slice s2 =>
      exfalso
      rw [getName_iface_eq, getName_slice_eq] at h
      simp only [List.cons_append] at h
      exact cons_clash (by decide) h
    | map k2 v2 =>
      exfalso
      rw [getName_iface_eq, getName_map_eq] at h
      simp only [List.cons_append] at h
      exact cons_clash (by decide) h
    | struct fs2 =>
      exfalso
      rw [getName_iface_eq, getName_struct_eq] at h
      simp only [List.cons_append] at h
      exact cons_clash (by decide) h
    | iface ms2 =>
      simp only [getName_iface_eq, List.cons_append, List.append_assoc,
        List.singleton_append] at h
      injection h with hh h
      injection h with hh h
      injection h with hh h
      injection h with hh h
      injection h with hh h
      injection h with hh h
      injection h with hh h
      injection h with hh h
      injection h with hh h
      injection h with hh h
      injection h with hh h
      cases ms1 with
      | nil =>
        cases ms2 with
        | nil =>
          simp only [ifaceBody, List.nil_append] at h
          injection h with hh h
          exact ⟨rfl, h⟩
        | cons mn2 mi2 mo2 mtl2 =>
          exfalso
          simp only [ifaceBody, List.nil_append, List.cons_append] at h
          exact cons_clash (by decide) h
      | cons mn1 mi1 mo1 mtl1 =>
        cases ms2 with
        | nil =>
          exfalso
          simp only [ifaceBody, List.nil_append, List.cons_append] at h
          exact cons_clash (by decide) h
        | cons mn2 mi2 mo2 mtl2 =>
          simp only [ifaceBody, List.cons_append] at h
          injection h with hh h
          obtain ⟨hms, hr⟩ := inj_methods (.cons mn1 mi1 mo1 mtl1) (.cons mn2 mi2 mo2 mtl2)
            r1 r2 (wfType_iface hw1) (wfType_iface hw2) h
          exact ⟨by rw [hms], hr⟩
    | func i2 o2 =>
      exfalso
      rw [getName_iface_eq, getName_func_eq] at h
      simp only [List.cons_append] at h
      exact cons_clash (by decide) h
  | func i1 o1 =>
    cases t2 with
    | invalid =>
      exfalso
      rw [getName_func_eq, getName_invalid_eq] at h
      simp only [List.cons_append, List.nil_append] at h
      exact cons_clash (by decide) h
    | named pkg2 nm2 =>
      exfalso
      obtain ⟨X, hX⟩ := funcTail_head i1 o1
      have h' : getName (.named pkg2 nm2) ++ r2 =
          [102, 117, 110, 99] ++ (40 :: (X ++ r1)) := by
        rw [getName_func_eq, hX] at h
        simpa [List.cons_append, List.append_assoc] using h.symm
      obtain ⟨-, hx⟩ := named_token_eq pkg2 nm2 hw2 [102, 117, 110, 99] (40 :: (X ++ r1)) r2
        (by decide)
        (by intro c hc; simp only [List.head?_cons, Option.some.injEq] at hc; subst hc; decide)
        hg2 h'
      exact (goodRest_head hg2 40 (by rw [hx]; rfl)).2.1 rfl
    | ptr s2 =>
      exfalso
      rw [getName_func_eq, getName_ptr_eq] at h
      simp only [List.cons_append] at h
      exact cons_clash (by decide) h
    | array n2 s2 =>
      exfalso
      rw [getName_func_eq, getName_array_eq] at h
      simp only [List.cons_append] at h
      exact cons_clash (by decide) h
    | slice s2 =>
      exfalso
      rw [getName_func_eq, getName_slice_eq] at h
      simp only [List.cons_append] at h
      exact cons_clash (by decide) h
    | map k2 v2 =>
      exfalso
      rw [getName_func_eq, getName_map_eq] at h
      simp only [List.cons_append] at h
      exact cons_clash (by decide) h
    | struct fs2 =>
      exfalso
      rw [getName_func_eq, getName_struct_eq] at h
      simp only [List.cons_append] at h
      exact cons_clash (by decide) h
    | iface ms2 =>
      exfalso
      rw [getName_func_eq, getName_iface_eq] at h
      simp only [List.cons_append] at h
      exact cons_clash (by decide) h
    | func i2 o2 =>
      simp only [getName_func_eq, List.cons_append] at h
      injection h with hh h
      injection h with hh h
      injection h with hh h
      injection h with hh h
      obtain ⟨hi, ho, hr⟩ := inj_funcTail i1 o1 i2 o2 r1 r2
        (wfType_func hw1).1 (wfType_func hw1).2 (wfType_func hw2).1 (wfType_func hw2).2
        hg1 hg2 h
      exact ⟨by rw [hi, ho], hr⟩
termination_by 2 * sizeOf t1
decreasing_by
  all_goals subst_vars
  all_goals simp_wf
  all_goals omega

/-- One printed field followed by a separator determines the field. -/
theorem inj_field (nm1 : Option (List Nat)) (t1 : GoType) (nm2 : Option (List Nat))
    (t2 : GoType) (r1 r2 : List Nat)
    (hn1 : wfFieldName nm1 = true) (hw1 : wfType t1 = true)
    (hn2 : wfFieldName nm2 = true) (hw2 : wfType t2 = true)
    (hg1 : goodRest r1 = true) (hg2 : goodRest r2 = true)
    (h : fieldEmit nm1 t1 ++ r1 = fieldEmit nm2 t2 ++ r2) :
    nm1 = nm2 ∧ t1 = t2 ∧ r1 = r2 := by
  cases nm1 with
  | none =>
    cases nm2 with
    | none =>
      simp only [fieldEmit] at h
      obtain ⟨ht, hr⟩ := inj_type t1 t2 r1 r2 hw1 hw2 hg1 hg2 h
      exact ⟨rfl, ht, hr⟩
    | some s2 =>
      exfalso
      simp only [fieldEmit, List.append_assoc, List.cons_append] at h
      exact anon_named_clash t1 s2 t2 r1 r2 hw1 hn2 hw2 hg1 h
  | some s1 =>
    cases nm2 with
    | none =>
      exfalso
      simp only [fieldEmit, List.append_assoc, List.cons_append] at h
      exact anon_named_clash t2 s1 t1 r2 r1 hw2 hn1 hw1 hg2 h.symm
    | some s2 =>
      simp only [fieldEmit, List.append_assoc, List.cons_append] at h
      have hn1' := hn1
      have hn2' := hn2
      simp only [wfFieldName, Bool.and_eq_true, decide_eq_true_eq, List.all_eq_true]
        at hn1' hn2'
      obtain ⟨hs, hx⟩ := token_split pkgChar s1 s2
        (32 :: (getName t1 ++ r1)) (32 :: (getName t2 ++ r2))
        (fun c hc => by simp [pkgChar, hn1'.2 c hc])
        (fun c hc => by simp [pkgChar, hn2'.2 c hc])
        (by intro c hc; simp only [List.head?_cons, Option.some.injEq] at hc; subst hc; decide)
        (by intro c hc; simp only [List.head?_cons, Option.some.injEq] at hc; subst hc; decide)
        h
      injection hx with hh hx
      obtain ⟨ht, hr⟩ := inj_type t1 t2 r1 r2 hw1 hw2 hg1 hg2 hx
      exact ⟨by rw [hs], ht, hr⟩
termination_by 2 * sizeOf t1 + 1
decreasing_by
  all_goals subst_vars
  all_goals simp_wf

/-- The printed field loop of a struct followed by the closing brace
determines the field list. -/
theorem inj_fields (fs1 fs2 : FieldList) (r1 r2 : List Nat)
    (hw1 : wfFields fs1 = true) (hw2 : wfFields fs2 = true)
    (h : getNameFields fs1 ++ 125 :: r1 = getNameFields fs2 ++ 125 :: r2) :
    fs1 = fs2 ∧ r1 = r2 := by
  cases fs1 with
  | nil =>
    cases fs2 with
    | nil =>
      simp only [getNameFields, List.nil_append] at h
      injection h with hh h
      exact ⟨rfl, h⟩
    | cons fn2 ft2 ftl2 =>
      exfalso
      obtain ⟨hnm2, hft2, htl2⟩ := wfFields_cons hw2
      obtain ⟨c, rest, hfe, hok⟩ := fieldEmit_head fn2 ft2 hnm2 hft2
      cases ftl2 with
      | nil =>
        simp only [getNameFields, List.nil_append, List.append_assoc,
          List.singleton_append] at h
        rw [hfe] at h
        simp only [List.cons_append] at h
        injection h with h1 hh
        rw [← h1] at hok
        exact absurd hok (by decide)
      | cons a2 b2 c2 =>
        simp only [getNameFields, List.nil_append, List.append_assoc,
          List.cons_append] at h
        rw [hfe] at h
        simp only [List.cons_append] at h
        injection h with h1 hh
        rw [← h1] at hok
        exact absurd hok (by decide)
  | cons fn1 ft1 ftl1 =>
    cases fs2 with
    | nil =>
      exfalso
      obtain ⟨hnm1, hft1, htl1⟩ := wfFields_cons hw1
      obtain ⟨c, rest, hfe, hok⟩ := fieldEmit_head fn1 ft1 hnm1 hft1
      cases ftl1 with
      | nil =>
        simp only [getNameFields, List.nil_append, List.append_assoc,
          List.singleton_append] at h
        rw [hfe] at h
        simp only [List.cons_append] at h
        injection h with h1 hh
        rw [h1] at hok
        exact absurd hok (by decide)
      | cons a1 b1 c1 =>
        simp only [getNameFields, List.nil_append, List.append_assoc,
          List.cons_append] at h
        rw [hfe] at h
        simp only [List.cons_append] at h
        injection h with h1 hh
        rw [h1] at hok
        exact absurd hok (by decide)
    | cons fn2 ft2 ftl2 =>
      obtain ⟨hnm1, hft1, htl1⟩ := wfFields_cons hw1
      obtain ⟨hnm2, hft2, htl2⟩ := wfFields_cons hw2
      cases ftl1 with
      | nil =>
        cases ftl2 with
        | nil =>
          simp only [getNameFields, List.append_assoc, List.singleton_append] at h
          obtain ⟨hnm, ht, hr⟩ := inj_field fn1 ft1 fn2 ft2 (32 :: 125 :: r1) (32 :: 125 :: r2)
            hnm1 hft1 hnm2 hft2 (by simp [goodRest]) (by simp [goodRest]) h
          injection hr with hh hr
          injection hr with hh hr
          exact ⟨by rw [hnm, ht], hr⟩
        | cons a2 b2 c2 =>
          exfalso
          simp only [getNameFields, List.append_assoc, List.singleton_append,
            List.cons_append] at h
          obtain ⟨hnm, ht, hr⟩ := inj_field fn1 ft1 fn2 ft2 (32 :: 125 :: r1)
            (59 :: 32 :: (getNameFields (.cons a2 b2 c2) ++ 125 :: r2))
            hnm1 hft1 hnm2 hft2 (by simp [goodRest]) (by simp [goodRest]) h
          exact cons_clash (by decide) hr
      | cons a1 b1 c1 =>
        cases ftl2 with
        | nil =>
          exfalso
          simp only [getNameFields, List.append_assoc, List.singleton_append,
            List.cons_append] at h
          obtain ⟨hnm, ht, hr⟩ := inj_field fn1 ft1 fn2 ft2
            (59 :: 32 :: (getNameFields (.cons a1 b1 c1) ++ 125 :: r1)) (32 :: 125 :: r2)
            hnm1 hft1 hnm2 hft2 (by simp [goodRest]) (by simp [goodRest]) h
          exact cons_clash (by decide) hr
        | cons a2 b2 c2 =>
          simp only [getNameFields, List.append_assoc, List.cons_append] at h
          obtain ⟨hnm, ht, hr⟩ := inj_field fn1 ft1 fn2 ft2
            (59 :: 32 :: (getNameFields (.cons a1 b1 c1) ++ 125 :: r1))
            (59 :: 32 :: (getNameFields (.cons a2 b2 c2) ++ 125 :: r2))
            hnm1 hft1 hnm2 hft2 (by simp [goodRest]) (by simp [goodRest]) h
          injection hr with hh hr
          injection hr with hh hr
          obtain ⟨hfs, hrr⟩ := inj_fields (.cons a1 b1 c1) (.cons a2 b2 c2) r1 r2 htl1 htl2 hr
          exact ⟨by rw [hnm, ht, hfs], hrr⟩
termination_by 2 * sizeOf fs1
decreasing_by
  all_goals subst_vars
  all_goals simp_wf
  all_goals omega

/-- The printed method loop of an interface followed by the closing
brace determines the method list. -/
theorem inj_methods (ms1 ms2 : MethodList) (r1 r2 : List Nat)
    (hw1 : wfMethods ms1 = true) (hw2 : wfMethods ms2 = true)
    (h : getNameMethods ms1 ++ 125 :: r1 = getNameMethods ms2 ++ 125 :: r2) :
    ms1 = ms2 ∧ r1 = r2 := by
  cases ms1 with
  | nil =>
    cases ms2 with
    | nil =>
      simp only [getNameMethods, List.nil_append] at h
      injection h with hh h
      exact ⟨rfl, h⟩
    | cons mn2 mi2 mo2 mtl2 =>
      exfalso
      obtain ⟨hne2, hid2, hi2, ho2, htl2⟩ := wfMethods_cons hw2
      cases hnm : mn2 with
      | nil => exact hne2 hnm
      | cons d s' =>
        have hd := hid2 d (by rw [hnm]; simp)
        cases mtl2 with
        | nil =>
          simp only [getNameMethods, List.nil_append, List.append_assoc,
            List.singleton_append] at h
          rw [hnm] at h
          simp only [List.cons_append] at h
          injection h with h1 hh
          rw [← h1] at hd
          exact absurd hd (by decide)
        | cons a2 b2 c2 d2 =>
          simp only [getNameMethods, List.nil_append, List.append_assoc,
            List.cons_append] at h
          rw [hnm] at h
          simp only [List.cons_append] at h
          injection h with h1 hh
          rw [← h1] at hd
          exact absurd hd (by decide)
  | cons mn1 mi1 mo1 mtl1 =>
    cases ms2 with
    | nil =>
      exfalso
      obtain ⟨hne1, hid1, hi1, ho1, htl1⟩ := wfMethods_cons hw1
      cases hnm : mn1 with
      | nil => exact hne1 hnm
      | cons d s' =>
        have hd := hid1 d (by rw [hnm]; simp)
        cases mtl1 with
        | nil =>
          simp only [getNameMethods, List.nil_append, List.append_assoc,
            List.singleton_append] at h
          rw [hnm] at h
          simp only [List.cons_append] at h
          injection h with h1 hh
          rw [h1] at hd
          exact absurd hd (by decide)
        | cons a1 b1 c1 d1 =>
          simp only [getNameMethods, List.nil_append, List.append_assoc,
            List.cons_append] at h
          rw [hnm] at h
          simp only [List.cons_append] at h
          injection h with h1 hh
          rw [h1] at hd
          exact absurd hd (by decide)
    | cons mn2 mi2 mo2 mtl2 =>
      obtain ⟨hne1, hid1, hi1, ho1, htl1⟩ := wfMethods_cons hw1
      obtain ⟨hne2, hid2, hi2, ho2, htl2⟩ := wfMethods_cons hw2
      cases mtl1 with
      | nil =>
        cases mtl2 with
        | nil =>
          simp only [getNameMethods, List.append_assoc, List.singleton_append] at h
          obtain ⟨hnm, hx⟩ := token_split pkgChar mn1 mn2
            (funcTail mi1 mo1 ++ 32 :: 125 :: r1) (funcTail mi2 mo2 ++ 32 :: 125 :: r2)
            (fun c hc => by simp [pkgChar, hid1 c hc])
            (fun c hc => by simp [pkgChar, hid2 c hc])
            (by
              intro c hc
              obtain ⟨X, hX⟩ := funcTail_head mi1 mo1
              rw [hX] at hc
              simp only [List.cons_append, List.head?_cons, Option.some.injEq] at hc
              subst hc
              decide)
            (by
              intro c hc
              obtain ⟨X, hX⟩ := funcTail_head mi2 mo2
              rw [hX] at hc
              simp only [List.cons_append, List.head?_cons, Option.some.injEq] at hc
              subst hc
              decide)
            h
          obtain ⟨hi, ho, hS⟩ := inj_funcTail mi1 mo1 mi2 mo2 (32 :: 125 :: r1)
            (32 :: 125 :: r2) hi1 ho1 hi2 ho2 (by simp [goodRest]) (by simp [goodRest]) hx
          injection hS with hh hS
          injection hS with hh hS
          exact ⟨by rw [hnm, hi, ho], hS⟩
        | cons a2 b2 c2 d2 =>
          exfalso
          simp only [getNameMethods, List.append_assoc, List.singleton_append,
            List.cons_append] at h
          obtain ⟨hnm, hx⟩ := token_split pkgChar mn1 mn2
            (funcTail mi1 mo1 ++ 32 :: 125 :: r1)
            (funcTail mi2 mo2 ++ 59 :: 32 :: (getNameMethods (.cons a2 b2 c2 d2) ++ 125 :: r2))
            (fun c hc => by simp [pkgChar, hid1 c hc])
            (fun c hc => by simp [pkgChar, hid2 c hc])
            (by
              intro c hc
              obtain ⟨X, hX⟩ := funcTail_head mi1 mo1
              rw [hX] at hc
              simp only [List.cons_append, List.head?_cons, Option.some.injEq] at hc
              subst hc
              decide)
            (by
              intro c hc
              obtain ⟨X, hX⟩ := funcTail_head mi2 mo2
              rw [hX] at hc
              simp only [List.cons_append, List.head?_cons, Option.some.injEq] at hc
              subst hc
              decide)
            h
          obtain ⟨hi, ho, hS⟩ := inj_funcTail mi1 mo1 mi2 mo2 (32 :: 125 :: r1)
            (59 :: 32 :: (getNameMethods (.cons a2 b2 c2 d2) ++ 125 :: r2))
            hi1 ho1 hi2 ho2 (by simp [goodRest]) (by simp [goodRest]) hx
          exact cons_clash (by decide) hS
      | cons a1 b1 c1 d1 =>
        cases mtl2 with
        | nil =>
          exfalso
          simp only [getNameMethods, List.append_assoc, List.singleton_append,
            List.cons_append] at h
          obtain ⟨hnm, hx⟩ := token_split pkgChar mn1 mn2
            (funcTail mi1 mo1 ++ 59 :: 32 :: (getNameMethods (.cons a1 b1 c1 d1) ++ 125 :: r1))
            (funcTail mi2 mo2 ++ 32 :: 125 :: r2)
            (fun c hc => by simp [pkgChar, hid1 c hc])
            (fun c hc => by simp [pkgChar, hid2 c hc])
            (by
              intro c hc
              obtain ⟨X, hX⟩ := funcTail_head mi1 mo1
              rw [hX] at hc
              simp only [List.cons_append, List.head?_cons, Option.some.injEq] at hc
              subst hc
              decide)
            (by
              intro c hc
              obtain ⟨X, hX⟩ := funcTail_head mi2 mo2
              rw [hX] at hc
              simp only [List.cons_append, List.head?_cons, Option.some.injEq] at hc
              subst hc
              decide)
            h
          obtain ⟨hi, ho, hS⟩ := inj_funcTail mi1 mo1 mi2 mo2
            (59 :: 32 :: (getNameMethods (.cons a1 b1 c1 d1) ++ 125 :: r1)) (32 :: 125 :: r2)
            hi1 ho1 hi2 ho2 (by simp [goodRest]) (by simp [goodRest]) hx
          exact cons_clash (by decide) hS
        | cons a2 b2 c2 d2 =>
          simp only [getNameMethods, List.append_assoc, List.cons_append] at h
          obtain ⟨hnm, hx⟩ := token_split pkgChar mn1 mn2
            (funcTail mi1 mo1 ++ 59 :: 32 :: (getNameMethods (.cons a1 b1 c1 d1) ++ 125 :: r1))
            (funcTail mi2 mo2 ++ 59 :: 32 :: (getNameMethods (.cons a2 b2 c2 d2) ++ 125 :: r2))
            (fun c hc => by simp [pkgChar, hid1 c hc])
            (fun c hc => by simp [pkgChar, hid2 c hc])
            (by
              intro c hc
              obtain ⟨X, hX⟩ := funcTail_head mi1 mo1
              rw [hX] at hc
              simp only [List.cons_append, List.head?_cons, Option.some.injEq] at hc
              subst hc
              decide)
            (by
              intro c hc
              obtain ⟨X, hX⟩ := funcTail_head mi2 mo2
              rw [hX] at hc
              simp only [List.cons_append, List.head?_cons, Option.some.injEq] at hc
              subst hc
              decide)
            h
          obtain ⟨hi, ho, hS⟩ := inj_funcTail mi1 mo1 mi2 mo2
            (59 :: 32 :: (getNameMethods (.cons a1 b1 c1 d1) ++ 125 :: r1))
            (59 :: 32 :: (getNameMethods (.cons a2 b2 c2 d2) ++ 125 :: r2))
            hi1 ho1 hi2 ho2 (by simp [goodRest]) (by simp [goodRest]) hx
          injection hS with hh hS
          injection hS with hh hS
          obtain ⟨hms, hrr⟩ := inj_methods (.cons a1 b1 c1 d1) (.cons a2 b2 c2 d2) r1 r2
            htl1 htl2 hS
          exact ⟨by rw [hnm, hi, ho, hms], hrr⟩
termination_by 2 * sizeOf ms1
decreasing_by
  all_goals subst_vars
  all_goals simp_wf
  all_goals omega

/-- The part of a printed func name after the "func" keyword followed
by a legitimate remainder determines parameters, results and the
remainder. -/
theorem inj_funcTail (i1 o1 i2 o2 : TypeList) (r1 r2 : List Nat)
    (hwi1 : wfTypes i1 = true) (hwo1 : wfTypes o1 = true)
    (hwi2 : wfTypes i2 = true) (hwo2 : wfTypes o2 = true)
    (hg1 : goodRest r1 = true) (hg2 : goodRest r2 = true)
    (h : funcTail i1 o1 ++ r1 = funcTail i2 o2 ++ r2) :
    i1 = i2 ∧ o1 = o2 ∧ r1 = r2 := by
  cases o1 with
  | nil =>
    cases o2 with
    | nil =>
      simp only [funcTail, List.cons_append, List.append_assoc, List.singleton_append] at h
      injection h with hh h
      obtain ⟨hi, hx⟩ := inj_tlist i1 i2 r1 r2 hwi1 hwi2 h
      exact ⟨hi, rfl, hx⟩
    | cons a2 tl2 =>
      cases tl2 with
      | nil =>
        exfalso
        simp only [funcTail, List.cons_append, List.append_assoc, List.singleton_append] at h
        injection h with hh h
        obtain ⟨hi, hx⟩ := inj_tlist i1 i2 r1 (32 :: (getName a2 ++ r2)) hwi1 hwi2 h
        rw [hx] at hg1
        obtain ⟨x', hx'⟩ := goodRest_space hg1
        exact getName_not_head a2 (wfTypes_cons hwo2).1 125 (by decide) _ _ hx'
      | cons b2 c2 =>
        exfalso
        simp only [funcTail, List.cons_append, List.append_assoc, List.singleton_append] at h
        injection h with hh h
        obtain ⟨hi, hx⟩ := inj_tlist i1 i2 r1
          (32 :: 40 :: (getNameTypes (.cons a2 (.cons b2 c2)) ++ 41 :: r2)) hwi1 hwi2 h
        rw [hx] at hg1
        obtain ⟨x', hx'⟩ := goodRest_space hg1
        exact cons_clash (by decide) hx'
  | cons a1 tl1 =>
    cases tl1 with
    | nil =>
      cases o2 with
      | nil =>
        exfalso
        simp only [funcTail, List.cons_append, List.append_assoc, List.singleton_append] at h
        injection h with hh h
        obtain ⟨hi, hx⟩ := inj_tlist i1 i2 (32 :: (getName a1 ++ r1)) r2 hwi1 hwi2 h
        rw [← hx] at hg2
        obtain ⟨x', hx'⟩ := goodRest_space hg2
        exact getName_not_head a1 (wfTypes_cons hwo1).1 125 (by decide) _ _ hx'
      | cons a2 tl2 =>
        cases tl2 with
        | nil =>
          simp only [funcTail, List.cons_append, List.append_assoc, List.singleton_append] at h
          injection h with hh h
          obtain ⟨hi, hx⟩ := inj_tlist i1 i2 (32 :: (getName a1 ++ r1))
            (32 :: (getName a2 ++ r2)) hwi1 hwi2 h
          injection hx with hh hx
          obtain ⟨ha, hr⟩ := inj_type a1 a2 r1 r2 (wfTypes_cons hwo1).1 (wfTypes_cons hwo2).1
            hg1 hg2 hx
          exact ⟨hi, by rw [ha], hr⟩
        | cons b2 c2 =>
          exfalso
          simp only [funcTail, List.cons_append, List.append_assoc, List.singleton_append] at h
          injection h with hh h
          obtain ⟨hi, hx⟩ := inj_tlist i1 i2 (32 :: (getName a1 ++ r1))
            (32 :: 40 :: (getNameTypes (.cons a2 (.cons b2 c2)) ++ 41 :: r2)) hwi1 hwi2 h
          injection hx with hh hx
          exact getName_not_head a1 (wfTypes_cons hwo1).1 40 (by decide) _ _ hx
    | cons b1 c1 =>
      cases o2 with
      | nil =>
        exfalso
        simp only [funcTail, List.cons_append, List.append_assoc, List.singleton_append] at h
        injection h with hh h
        obtain ⟨hi, hx⟩ := inj_tlist i1 i2
          (32 :: 40 :: (getNameTypes (.cons a1 (.cons b1 c1)) ++ 41 :: r1)) r2 hwi1 hwi2 h
        rw [← hx] at hg2
        obtain ⟨x', hx'⟩ := goodRest_space hg2
        exact cons_clash (by decide) hx'
      | cons a2 tl2 =>
        cases tl2 with
        | nil =>
          exfalso
          simp only [funcTail, List.cons_append, List.append_assoc, List.singleton_append] at h
          injection h with hh h
          obtain ⟨hi, hx⟩ := inj_tlist i1 i2
            (32 :: 40 :: (getNameTypes (.cons a1 (.cons b1 c1)) ++ 41 :: r1))
            (32 :: (getName a2 ++ r2)) hwi1 hwi2 h
          injection hx with hh hx
          exact getName_not_head a2 (wfTypes_cons hwo2).1 40 (by decide) _ _ hx.symm
        | cons b2 c2 =>
          simp only [funcTail, List.cons_append, List.append_assoc, List.singleton_append] at h
          injection h with hh h
          obtain ⟨hi, hx⟩ := inj_tlist i1 i2
            (32 :: 40 :: (getNameTypes (.cons a1 (.cons b1 c1)) ++ 41 :: r1))
            (32 :: 40 :: (getNameTypes (.cons a2 (.cons b2 c2)) ++ 41 :: r2)) hwi1 hwi2 h
          injection hx with hh hx
          injection hx with hh hx
          obtain ⟨ho, hr⟩ := inj_tlist (.cons a1 (.cons b1 c1)) (.cons a2 (.cons b2 c2)) r1 r2
            hwo1 hwo2 hx
          exact ⟨hi, ho, hr⟩
termination_by 2 * (sizeOf i1 + sizeOf o1) + 1
decreasing_by
  all_goals subst_vars
  all_goals simp_wf
  all_goals omega

/-- A comma-separated printed type list followed by the closing
parenthesis determines the list. -/
theorem inj_tlist (ts1 ts2 : TypeList) (r1 r2 : List Nat)
    (hw1 : wfTypes ts1 = true) (hw2 : wfTypes ts2 = true)
    (h : getNameTypes ts1 ++ 41 :: r1 = getNameTypes ts2 ++ 41 :: r2) :
    ts1 = ts2 ∧ r1 = r2 := by
  cases ts1 with
  | nil =>
    cases ts2 with
    | nil =>
      simp only [getNameTypes, List.nil_append] at h
      injection h with hh h
      exact ⟨rfl, h⟩
    | cons t2 tl2 =>
      exfalso
      cases tl2 with
      | nil =>
        simp only [getNameTypes, List.nil_append] at h
        exact getName_not_head t2 (wfTypes_cons hw2).1 41 (by decide) _ _ h.symm
      | cons a2 b2 =>
        simp only [getNameTypes, List.nil_append, List.append_assoc, List.cons_append] at h
        exact getName_not_head t2 (wfTypes_cons hw2).1 41 (by decide) _ _ h.symm
  | cons t1 tl1 =>
    cases ts2 with
    | nil =>
      exfalso
      cases tl1 with
      | nil =>
        simp only [getNameTypes, List.nil_append] at h
        exact getName_not_head t1 (wfTypes_cons hw1).1 41 (by decide) _ _ h
      | cons a1 b1 =>
        simp only [getNameTypes, List.nil_append, List.append_assoc, List.cons_append] at h
        exact getName_not_head t1 (wfTypes_cons hw1).1 41 (by decide) _ _ h
    | cons t2 tl2 =>
      cases tl1 with
      | nil =>
        cases tl2 with
        | nil =>
          simp only [getNameTypes] at h
          obtain ⟨ht, hr⟩ := inj_type t1 t2 (41 :: r1) (41 :: r2)
            (wfTypes_cons hw1).1 (wfTypes_cons hw2).1
            (by simp [goodRest]) (by simp [goodRest]) h
          injection hr with hh hr
          exact ⟨by rw [ht], hr⟩
        | cons a2 b2 =>
          exfalso
          simp only [getNameTypes, List.append_assoc, List.cons_append] at h
          obtain ⟨ht, hr⟩ := inj_type t1 t2 (41 :: r1)
            (44 :: 32 :: (getNameTypes (.cons a2 b2) ++ 41 :: r2))
            (wfTypes_cons hw1).1 (wfTypes_cons hw2).1
            (by simp [goodRest]) (by simp [goodRest]) h
          exact cons_clash (by decide) hr
      | cons a1 b1 =>
        cases tl2 with
        | nil =>
          exfalso
          simp only [getNameTypes, List.append_assoc, List.cons_append] at h
          obtain ⟨ht, hr⟩ := inj_type t1 t2
            (44 :: 32 :: (getNameTypes (.cons a1 b1) ++ 41 :: r1)) (41 :: r2)
            (wfTypes_cons hw1).1 (wfTypes_cons hw2).1
            (by simp [goodRest]) (by simp [goodRest]) h
          exact cons_clash (by decide) hr
        | cons a2 b2 =>
          simp only [getNameTypes, List.append_assoc, List.cons_append] at h
          obtain ⟨ht, hr⟩ := inj_type t1 t2
            (44 :: 32 :: (getNameTypes (.cons a1 b1) ++ 41 :: r1))
            (44 :: 32 :: (getNameTypes (.cons a2 b2) ++ 41 :: r2))
            (wfTypes_cons hw1).1 (wfTypes_cons hw2).1
            (by simp [goodRest]) (by simp [goodRest]) h
          injection hr with hh hr
          injection hr with hh hr
          obtain ⟨hts, hrr⟩ := inj_tlist (.cons a1 b1) (.cons a2 b2) r1 r2
            (wfTypes_cons hw1).2 (wfTypes_cons hw2).2 hr
          exact ⟨by rw [ht, hts], hrr⟩
termination_by 2 * sizeOf ts1
decreasing_by
  all_goals subst_vars
  all_goals simp_wf
  all_goals omega

end

end Gotiny

namespace Gotiny

/-- C9: canonical name derivation is deterministic and injective over
type shapes: getName is a pure function of the type's structure, so
identical shapes always produce identical names, and for well-formed
shapes (names are nonempty identifiers, package paths use package-path
characters, as reflect guarantees) distinct shapes never produce the
same name. -/
theorem c9_getName_injective (t1 t2 : GoType)
    (hw1 : wfType t1 = true) (hw2 : wfType t2 = true) :
    (t1 = t2 → getName t1 = getName t2) ∧
    (getName t1 = getName t2 → t1 = t2) := by
  constructor
  · intro h
    rw [h]
  · intro h
    have h' : getName t1 ++ ([] : List Nat) = getName t2 ++ [] := by rw [h]
    exact (inj_type t1 t2 [] [] hw1 hw2 (by decide) (by decide) h').1

theorem c9_getName_injective_witness :
    wfType (GoType.ptr (.named [] [84])) = true ∧
    wfType (GoType.slice (.named [] [84])) = true ∧
    ((GoType.ptr (.named [] [84]) = GoType.slice (.named [] [84]) →
        getName (GoType.ptr (.named [] [84])) = getName (GoType.slice (.named [] [84]))) ∧
      (getName (GoType.ptr (.named [] [84])) = getName (GoType.slice (.named [] [84])) →
        GoType.ptr (.named [] [84]) = GoType.slice (.named [] [84]))) :=
  ⟨by simp [wfType, identChar], by simp [wfType, identChar],
    c9_getName_injective _ _ (by simp [wfType, identChar]) (by simp [wfType, identChar])⟩

end Gotiny
